import Mathlib

/-!
Verification of the MaaEnd map-tracker core (tools/map_tracker).

The Python sources are shallowly embedded: rasters become functions from
integer coordinates to channel values, numpy float32 arithmetic becomes
exact rational arithmetic, and the in-place pixel updates of the original
become functional updates of the pixel map.
-/

namespace MaaEnd

/-- An image raster as handled by `Drawer`: height, width, channel count
(3 = BGR, 4 = BGRA) and channel values indexed by (row, column, channel).
Coordinates outside the raster and channels at or beyond `c` carry no
meaning. -/
structure Img where
  h : Nat
  w : Nat
  c : Nat
  px : Nat → Nat → Nat → Nat

theorem Img.ext_struct (a b : Img) (hh : a.h = b.h) (hw : a.w = b.w)
    (hc : a.c = b.c) (hp : a.px = b.px) : a = b := by
  cases a; cases b; simp_all

/-- Conversion of a rational intermediate value to a stored byte:
`np.clip(v, 0, 255).astype(np.uint8)` (clip, then truncate toward zero;
after the clip the value is non-negative so truncation is the floor). -/
def toByte (q : ℚ) : Nat := (⌊max 0 (min 255 q)⌋).toNat

/-- One output channel of the alpha-blending branch of `Drawer.paste`
(utils.py lines 285-314), in exact rational arithmetic where the code
uses float32.  `bg`/`fg` give the channel bytes of the background and
foreground pixel; `dstC` is the channel count of the destination. -/
def blendChannel (dstC : Nat) (bg fg : Nat → Nat) (ch : Nat) : Nat :=
  let aF : ℚ := (fg 3 : ℚ) / 255
  let aB : ℚ := if dstC = 4 then (bg 3 : ℚ) / 255 else 1
  let outA : ℚ := aF + aB * (1 - aF)
  if ch = 3 then
    toByte (outA * 255)
  else if 0 < outA then
    toByte (((fg ch : ℚ) * aF + (bg ch : ℚ) * aB * (1 - aF)) / outA)
  else
    0

/-- Shallow embedding of `Drawer.paste` (utils.py lines 252-317) without
the optional resize step (`scale_w = scale_h = None`).  The source
rectangle is clamped to the canvas; with `withAlpha` set and a 4-channel
source the clamped region is alpha blended, otherwise it is overwritten. -/
def paste (dst fg : Img) (pos : Int × Int) (withAlpha : Bool) : Img :=
  let x := pos.1
  let y := pos.2
  let x0 : Int := max 0 x
  let y0 : Int := max 0 y
  let x1 : Int := min (dst.w : Int) (x + fg.w)
  let y1 : Int := min (dst.h : Int) (y + fg.h)
  if x1 ≤ x0 ∨ y1 ≤ y0 then dst
  else
    { dst with
      px := fun yy xx ch =>
        if x0 ≤ (xx : Int) ∧ (xx : Int) < x1 ∧ y0 ≤ (yy : Int) ∧
            (yy : Int) < y1 ∧ ch < dst.c then
          let fy := ((yy : Int) - y).toNat
          let fx := ((xx : Int) - x).toNat
          if withAlpha = true ∧ fg.c = 4 then
            blendChannel dst.c (dst.px yy xx) (fg.px fy fx) ch
          else
            fg.px fy fx ch
        else
          dst.px yy xx ch }

theorem paste_h (dst fg : Img) (pos : Int × Int) (wa : Bool) :
    (paste dst fg pos wa).h = dst.h := by
  unfold paste; dsimp only; split <;> rfl

theorem paste_w (dst fg : Img) (pos : Int × Int) (wa : Bool) :
    (paste dst fg pos wa).w = dst.w := by
  unfold paste; dsimp only; split <;> rfl

theorem paste_c (dst fg : Img) (pos : Int × Int) (wa : Bool) :
    (paste dst fg pos wa).c = dst.c := by
  unfold paste; dsimp only; split <;> rfl

/-- Membership of a pixel in the clamped intersection rectangle of a
paste of `fg` at `pos` onto `dst`. -/
def inPasteRect (dst fg : Img) (pos : Int × Int) (yy xx : Nat) : Prop :=
  max 0 pos.1 ≤ (xx : Int) ∧ (xx : Int) < min (dst.w : Int) (pos.1 + fg.w) ∧
  max 0 pos.2 ≤ (yy : Int) ∧ (yy : Int) < min (dst.h : Int) (pos.2 + fg.h)

instance (dst fg : Img) (pos : Int × Int) (yy xx : Nat) :
    Decidable (inPasteRect dst fg pos yy xx) := by
  unfold inPasteRect; infer_instance

/-- C10: `Drawer.paste` leaves every destination pixel outside the clamped
intersection rectangle unchanged, and when the clamped intersection is
empty the destination is not modified at all. -/
theorem paste_frame (dst fg : Img) (pos : Int × Int) (wa : Bool) :
    (∀ yy xx ch : Nat, ¬ inPasteRect dst fg pos yy xx →
        (paste dst fg pos wa).px yy xx ch = dst.px yy xx ch) ∧
    (min (dst.w : Int) (pos.1 + fg.w) ≤ max 0 pos.1 ∨
        min (dst.h : Int) (pos.2 + fg.h) ≤ max 0 pos.2 →
      paste dst fg pos wa = dst) := by
  constructor
  · intro yy xx ch hout
    unfold paste
    dsimp only
    split
    · rfl
    · dsimp only
      rw [if_neg]
      intro hc
      exact hout ⟨hc.1, hc.2.1, hc.2.2.1, hc.2.2.2.1⟩
  · intro hempty
    unfold paste
    dsimp only
    rw [if_pos hempty]

/-- Pointwise characterization of `paste`: inside the clamped rectangle
(and for an existing channel) the pixel is blended or copied from the
source, elsewhere it is untouched. -/
theorem paste_px (dst fg : Img) (pos : Int × Int) (wa : Bool)
    (yy xx ch : Nat) :
    (paste dst fg pos wa).px yy xx ch =
      if inPasteRect dst fg pos yy xx ∧ ch < dst.c then
        (if wa = true ∧ fg.c = 4 then
          blendChannel dst.c (dst.px yy xx)
            (fg.px ((yy : Int) - pos.2).toNat ((xx : Int) - pos.1).toNat) ch
         else
          fg.px ((yy : Int) - pos.2).toNat ((xx : Int) - pos.1).toNat ch)
      else
        dst.px yy xx ch := by
  unfold paste
  dsimp only
  split
  · rename_i hempty
    rw [if_neg]
    rintro ⟨⟨h1, h2, h3, h4⟩, -⟩
    rcases hempty with h | h
    · omega
    · omega
  · dsimp only
    apply if_congr _ rfl rfl
    unfold inPasteRect
    tauto

/-- Witness for `paste_frame` at a concrete destination, source and
position. -/
theorem paste_frame_witness :
    (paste ⟨2, 2, 3, fun _ _ _ => 9⟩ ⟨1, 1, 3, fun _ _ _ => 7⟩ (0, 0)
        false).px 1 1 0 = 9 ∧
    paste ⟨2, 2, 3, fun _ _ _ => 9⟩ ⟨1, 1, 3, fun _ _ _ => 7⟩ (5, 5)
        false = ⟨2, 2, 3, fun _ _ _ => 9⟩ := by
  constructor
  · exact (paste_frame ⟨2, 2, 3, fun _ _ _ => 9⟩ ⟨1, 1, 3, fun _ _ _ => 7⟩
      (0, 0) false).1 1 1 0 (by decide)
  · exact (paste_frame ⟨2, 2, 3, fun _ _ _ => 9⟩ ⟨1, 1, 3, fun _ _ _ => 7⟩
      (5, 5) false).2 (by decide)

theorem inPasteRect_paste (dst fg g : Img) (pos q : Int × Int) (wa : Bool)
    (yy xx : Nat) :
    inPasteRect (paste dst g q wa) fg pos yy xx ↔
      inPasteRect dst fg pos yy xx := by
  unfold inPasteRect
  rw [paste_w, paste_h]

/-- C2 (amended): on each pixel of the clamped intersection, alpha-enabled
paste onto a 4-channel canvas from a 4-channel source stores
`out_alpha = a_fg + a_bg*(1-a_fg)` in the alpha channel and, wherever
`out_alpha > 0`, stores `(rgb_fg*a_fg + rgb_bg*a_bg*(1-a_fg)) / out_alpha`
in the color channels; wherever `out_alpha = 0` the color channels are set
to zero (the prior pixel value is overwritten, not kept).  Stored bytes
are the clipped, truncated rational values. -/
theorem paste_alpha_spec (dst fg : Img) (pos : Int × Int) (yy xx ch : Nat)
    (hd : dst.c = 4) (hf : fg.c = 4)
    (hin : inPasteRect dst fg pos yy xx) (hch : ch < 4) :
    (paste dst fg pos true).px yy xx ch =
      (let fy := ((yy : Int) - pos.2).toNat
       let fx := ((xx : Int) - pos.1).toNat
       let aF : ℚ := (fg.px fy fx 3 : ℚ) / 255
       let aB : ℚ := (dst.px yy xx 3 : ℚ) / 255
       let outA : ℚ := aF + aB * (1 - aF)
       if ch = 3 then
         toByte (outA * 255)
       else if 0 < outA then
         toByte (((fg.px fy fx ch : ℚ) * aF +
           (dst.px yy xx ch : ℚ) * aB * (1 - aF)) / outA)
       else
         0) := by
  rw [paste_px, if_pos ⟨hin, by omega⟩, if_pos ⟨rfl, hf⟩]
  unfold blendChannel
  rw [if_pos hd]

/-- Witness for `paste_alpha_spec`: a 1x1 canvas holding BGRA (9,9,9,64)
receives BGRA (255,255,255,128) at the origin. -/
theorem paste_alpha_spec_witness :
    (paste ⟨1, 1, 4, fun _ _ ch => if ch = 3 then 64 else 9⟩
        ⟨1, 1, 4, fun _ _ ch => if ch = 3 then 128 else 255⟩ (0, 0)
        true).px 0 0 0 =
      (let fy := ((0 : Int) - (0 : Int)).toNat
       let fx := ((0 : Int) - (0 : Int)).toNat
       let aF : ℚ :=
         ((⟨1, 1, 4, fun _ _ ch => if ch = 3 then 128 else 255⟩ :
           Img).px fy fx 3 : ℚ) / 255
       let aB : ℚ :=
         ((⟨1, 1, 4, fun _ _ ch => if ch = 3 then 64 else 9⟩ :
           Img).px 0 0 3 : ℚ) / 255
       let outA : ℚ := aF + aB * (1 - aF)
       if (0 : Nat) = 3 then
         toByte (outA * 255)
       else if 0 < outA then
         toByte ((((⟨1, 1, 4, fun _ _ ch => if ch = 3 then 128 else 255⟩ :
             Img).px fy fx 0 : ℚ) * aF +
           ((⟨1, 1, 4, fun _ _ ch => if ch = 3 then 64 else 9⟩ :
             Img).px 0 0 0 : ℚ) * aB * (1 - aF)) / outA)
       else
         0) :=
  paste_alpha_spec ⟨1, 1, 4, fun _ _ ch => if ch = 3 then 64 else 9⟩
    ⟨1, 1, 4, fun _ _ ch => if ch = 3 then 128 else 255⟩ (0, 0) 0 0 0
    rfl rfl (by decide) (by decide)

/-- C2 (counterexample to the original claim): with foreground and
background alpha both zero at a pixel of the intersection, `out_alpha = 0`
and the code zeroes the pixel instead of keeping its prior value — here
the prior blue byte 5 becomes 0. -/
theorem paste_alpha_zero_cex :
    (paste ⟨1, 1, 4, fun _ _ ch => if ch = 3 then 0 else 5⟩
        ⟨1, 1, 4, fun _ _ ch => if ch = 3 then 0 else 7⟩ (0, 0)
        true).px 0 0 0 ≠
      (⟨1, 1, 4, fun _ _ ch => if ch = 3 then 0 else 5⟩ : Img).px 0 0 0 := by
  norm_num [paste, blendChannel, toByte]

/-- C7 (amended): repeating `Drawer.paste` with identical inputs leaves
the canvas byte-identical whenever the alpha-blending branch is not taken
(alpha flag off, or the source image not 4-channel); the overwrite is
idempotent. -/
theorem paste_idem_of_overwrite (dst fg : Img) (pos : Int × Int) (wa : Bool)
    (hna : ¬ (wa = true ∧ fg.c = 4)) :
    paste (paste dst fg pos wa) fg pos wa = paste dst fg pos wa := by
  apply Img.ext_struct
  · rw [paste_h, paste_h]
  · rw [paste_w, paste_w]
  · rw [paste_c, paste_c]
  · funext yy xx ch
    simp only [paste_px, inPasteRect_paste, paste_c, if_neg hna]
    by_cases hr : inPasteRect dst fg pos yy xx ∧ ch < dst.c
    · simp only [if_pos hr]
    · simp only [if_neg hr]

/-- Witness for `paste_idem_of_overwrite` on a concrete canvas. -/
theorem paste_idem_of_overwrite_witness :
    paste (paste ⟨2, 2, 3, fun _ _ _ => 1⟩ ⟨1, 1, 3, fun _ _ _ => 8⟩ (0, 0)
        false) ⟨1, 1, 3, fun _ _ _ => 8⟩ (0, 0) false =
      paste ⟨2, 2, 3, fun _ _ _ => 1⟩ ⟨1, 1, 3, fun _ _ _ => 8⟩ (0, 0)
        false :=
  paste_idem_of_overwrite ⟨2, 2, 3, fun _ _ _ => 1⟩
    ⟨1, 1, 3, fun _ _ _ => 8⟩ (0, 0) false (by decide)

set_option maxHeartbeats 2000000 in
/-- C7 (counterexample to the original claim): alpha-blended paste is not
idempotent — pasting BGRA (255,255,255,128) onto a fully transparent
4-channel canvas once yields stored alpha 128, doing it a second time
yields 191. -/
theorem paste_alpha_not_idem_cex :
    (paste (paste ⟨1, 1, 4, fun _ _ _ => 0⟩
        ⟨1, 1, 4, fun _ _ ch => if ch = 3 then 128 else 255⟩ (0, 0) true)
        ⟨1, 1, 4, fun _ _ ch => if ch = 3 then 128 else 255⟩ (0, 0)
        true).px 0 0 3 ≠
      (paste ⟨1, 1, 4, fun _ _ _ => 0⟩
        ⟨1, 1, 4, fun _ _ ch => if ch = 3 then 128 else 255⟩ (0, 0)
        true).px 0 0 3 := by
  norm_num [paste, blendChannel, toByte]
  rw [show Int.toNat 128 = 128 from rfl]
  rw [show ((128 : ℚ) / 255 + ((128 : ℕ) : ℚ) / 255 * (127 / 255)) * 255 =
    (48896 / 255 : ℚ) by push_cast; ring]
  rw [show (0 : ℚ) ⊔ 255 ⊓ (48896 / 255 : ℚ) = 48896 / 255 by
    rw [min_eq_right (by norm_num), max_eq_right (by norm_num)]]
  rw [show ⌊(48896 / 255 : ℚ)⌋ = 191 by norm_num]
  decide

/-! ## Tile alignment (`MergeMapPage`) -/

/-- `MergeMapPage._has_opaque_pixels_on_edge` (map_tracker_merger.py lines
139-151): does the given edge of a 4-channel tile contain a pixel with
alpha at or above the threshold?  Unknown edge names yield `false`. -/
def hasOpaqueOnEdge (img : Img) (edge : String) (threshold : Nat) : Bool :=
  if edge = "left" then
    (List.range img.h).any fun y => threshold ≤ img.px y 0 3
  else if edge = "right" then
    (List.range img.h).any fun y => threshold ≤ img.px y (img.w - 1) 3
  else if edge = "top" then
    (List.range img.w).any fun x => threshold ≤ img.px 0 x 3
  else if edge = "bottom" then
    (List.range img.w).any fun x => threshold ≤ img.px (img.h - 1) x 3
  else
    false

inductive AlignDecision where
  | auto (direction : String)
  | manual
deriving DecidableEq

/-- The candidate list built by `MergeMapPage._process_single_group`
(map_tracker_merger.py lines 416-449) for a tile of raw size
`rawW x rawH` against the standard cell size `sw x sh`: the non-`None`
entries of `true_flags` / `true_corners`. -/
def alignCandidates (rawW rawH sw sh : Nat) (fl fr ft fb : Bool) :
    List String :=
  if rawW = sw then
    (if ft then ["t"] else []) ++ (if fb then ["b"] else [])
  else if rawH = sh then
    (if fl then ["l"] else []) ++ (if fr then ["r"] else [])
  else
    (if fl && ft then ["lt"] else []) ++ (if fr && ft then ["rt"] else []) ++
      (if fl && fb then ["lb"] else []) ++ (if fr && fb then ["rb"] else [])

/-- The single-edge to corner normalization of
`MergeMapPage._process_single_group` (map_tracker_merger.py lines
452-461). -/
def normalizeDirection (m : String) : String :=
  if m = "l" then "lt"
  else if m = "r" then "rt"
  else if m = "t" then "lt"
  else if m = "b" then "lb"
  else m

/-- The alignment decision of `MergeMapPage._process_single_group` for a
tile whose size differs from the standard cell size: auto when exactly
one candidate is true (with the direction normalized to a corner),
manual otherwise. -/
def alignNonStandard (rawW rawH sw sh : Nat) (fl fr ft fb : Bool) :
    AlignDecision :=
  match alignCandidates rawW rawH sw sh fl fr ft fb with
  | [m] => .auto (normalizeDirection m)
  | _ => .manual

/-- The full aligner on a tile image: edge flags are computed by
`_has_opaque_pixels_on_edge` with the default threshold 4, then the
decision logic runs on them. -/
def processTileAlign (img : Img) (sw sh : Nat) : AlignDecision :=
  alignNonStandard img.w img.h sw sh
    (hasOpaqueOnEdge img "left" 4) (hasOpaqueOnEdge img "right" 4)
    (hasOpaqueOnEdge img "top" 4) (hasOpaqueOnEdge img "bottom" 4)

/-- The candidate flags exactly as the specification words them: the
top/bottom edge flags when the width matches the standard cell, the
left/right edge flags when the height matches, otherwise the four
AND-combined corner flags. -/
def claimCandidates (rawW rawH sw sh : Nat) (fl fr ft fb : Bool) :
    List Bool :=
  if rawW = sw then [ft, fb]
  else if rawH = sh then [fl, fr]
  else [fl && ft, fr && ft, fl && fb, fr && fb]

theorem alignNonStandard_spec (rawW rawH sw sh : Nat) (fl fr ft fb : Bool) :
    ((claimCandidates rawW rawH sw sh fl fr ft fb).count true = 1 →
      ∃ d, alignNonStandard rawW rawH sw sh fl fr ft fb = .auto d ∧
        (d = "lt" ∨ d = "rt" ∨ d = "lb" ∨ d = "rb")) ∧
    ((claimCandidates rawW rawH sw sh fl fr ft fb).count true ≠ 1 →
      alignNonStandard rawW rawH sw sh fl fr ft fb = .manual) := by
  unfold claimCandidates alignNonStandard alignCandidates
  by_cases h1 : rawW = sw
  · simp only [if_pos h1]
    cases ft <;> cases fb <;> simp [normalizeDirection]
  · by_cases h2 : rawH = sh
    · simp only [if_neg h1, if_pos h2]
      cases fl <;> cases fr <;> simp [normalizeDirection]
    · simp only [if_neg h1, if_neg h2]
      cases fl <;> cases fr <;> cases ft <;> cases fb <;>
        simp [normalizeDirection]

/-- C3: a tile whose pixel dimensions differ from the standard cell size
is auto-aligned iff exactly one candidate (top/bottom edge flag when the
width matches, left/right edge flag when the height matches, otherwise an
AND-combined corner flag) is true, and the resulting direction is one of
lt, rt, lb, rb; with zero or multiple true candidates it is manual. -/
theorem tileAlign_auto_iff (img : Img) (sw sh : Nat)
    (hne : (img.w, img.h) ≠ (sw, sh)) :
    ((claimCandidates img.w img.h sw sh
        (hasOpaqueOnEdge img "left" 4) (hasOpaqueOnEdge img "right" 4)
        (hasOpaqueOnEdge img "top" 4)
        (hasOpaqueOnEdge img "bottom" 4)).count true = 1 →
      ∃ d, processTileAlign img sw sh = .auto d ∧
        (d = "lt" ∨ d = "rt" ∨ d = "lb" ∨ d = "rb")) ∧
    ((claimCandidates img.w img.h sw sh
        (hasOpaqueOnEdge img "left" 4) (hasOpaqueOnEdge img "right" 4)
        (hasOpaqueOnEdge img "top" 4)
        (hasOpaqueOnEdge img "bottom" 4)).count true ≠ 1 →
      processTileAlign img sw sh = .manual) :=
  alignNonStandard_spec img.w img.h sw sh _ _ _ _

/-- Witness for `tileAlign_auto_iff`: a 3x2 tile in a 3x3 cell whose top
row is opaque and bottom row transparent is auto-aligned to `lt`. -/
theorem tileAlign_auto_iff_witness :
    ∃ d, processTileAlign
        ⟨2, 3, 4, fun y _ ch => if ch = 3 ∧ y = 0 then 255 else 0⟩ 3 3 =
          .auto d ∧ (d = "lt" ∨ d = "rt" ∨ d = "lb" ∨ d = "rb") :=
  (tileAlign_auto_iff
    ⟨2, 3, 4, fun y _ ch => if ch = 3 ∧ y = 0 then 255 else 0⟩ 3 3
    (by decide)).1 (by decide)

/-! ## Pairwise overlap matching (`DistinMapPage._match_pair`) -/

/-- A binary raster (true = land). -/
abbrev Mask := Nat → Nat → Bool

/-- Python `round` on an exact rational: round half to even. -/
def pyRound (q : ℚ) : ℤ :=
  let f := ⌊q⌋
  let r := q - f
  if r < 1 / 2 then f
  else if 1 / 2 < r then f + 1
  else if f % 2 = 0 then f
  else f + 1

/-- Python `range(a, b)` over integers. -/
def intRange (a b : ℤ) : List ℤ :=
  (List.range (b - a).toNat).map fun k => a + k

/-- Row-major pixel coordinates (y, x) of an h x w raster. -/
def pixList (h w : Nat) : List (Nat × Nat) :=
  (List.range h).flatMap fun y => (List.range w).map fun x => (y, x)

/-- A content bounding box as in `_content_bbox`: x1/y1 inclusive,
x2/y2 exclusive. -/
structure BBox where
  x1 : Nat
  y1 : Nat
  x2 : Nat
  y2 : Nat

/-- `DistinMapPage._content_bbox` (map_tracker_merger.py lines 724-730):
tight bounding box of the true pixels of a mask, or none when empty. -/
def contentBBox (h w : Nat) (mask : Mask) : Option BBox :=
  match (pixList h w).filter (fun p => mask p.1 p.2) with
  | [] => none
  | p :: rest =>
    some ⟨(p :: rest).foldl (fun a q => min a q.2) p.2,
      (p :: rest).foldl (fun a q => min a q.1) p.1,
      (p :: rest).foldl (fun a q => max a q.2) p.2 + 1,
      (p :: rest).foldl (fun a q => max a q.1) p.1 + 1⟩

/-- The early-rejection test of `_match_pair` (line 783): the content
bounding box of B translated by (dx, dy) does not intersect that of A. -/
def bboxSeparated (ba bb : BBox) (dx dy : ℤ) : Prop :=
  (ba.x2 : ℤ) ≤ (bb.x1 : ℤ) + dx ∨ (bb.x2 : ℤ) + dx ≤ (ba.x1 : ℤ) ∨
  (ba.y2 : ℤ) ≤ (bb.y1 : ℤ) + dy ∨ (bb.y2 : ℤ) + dy ≤ (ba.y1 : ℤ)

instance (ba bb : BBox) (dx dy : ℤ) : Decidable (bboxSeparated ba bb dx dy) := by
  unfold bboxSeparated; infer_instance

/-- The loop body of `_match_pair` (lines 772-809) for one candidate grid
position (nx, ny), threading the current best result.  `np.mean` over an
empty selection is NaN, whose comparison with the threshold is false, so
that case keeps the current best. -/
def matchStep (hA wA hB wB : Nat) (grayA grayB : Nat → Nat → Nat)
    (maskA maskB : Mask) (sfx sfy minContent threshold : ℚ) (ba bb : BBox)
    (best : Option (ℤ × ℤ × ℚ)) (c : ℤ × ℤ) : Option (ℤ × ℤ × ℚ) :=
  let nx := c.1
  let ny := c.2
  if nx = 0 ∧ ny = 0 then best
  else
    let dx := pyRound ((nx : ℚ) * sfx)
    let dy := pyRound ((ny : ℚ) * sfy)
    if bboxSeparated ba bb dx dy then best
    else
      let ox1 := max 0 dx
      let oy1 := max 0 dy
      let ox2 := min (wA : ℤ) (dx + wB)
      let oy2 := min (hA : ℤ) (dy + hB)
      if ox2 - ox1 ≤ 0 ∨ oy2 - oy1 ≤ 0 then best
      else
        let pts := (intRange oy1 oy2).flatMap fun y =>
          (intRange ox1 ox2).map fun x => (y, x)
        let bothPts := pts.filter fun p =>
          maskA p.1.toNat p.2.toNat && maskB (p.1 - dy).toNat (p.2 - dx).toNat
        let nBoth := bothPts.length
        if (nBoth : ℚ) < minContent then best
        else if nBoth = 0 then best
        else
          let sumDiff := (bothPts.map fun p =>
            ((grayA p.1.toNat p.2.toNat : ℤ) -
              (grayB (p.1 - dy).toNat (p.2 - dx).toNat : ℤ)).natAbs).sum
          let score : ℚ := 1 - (sumDiff : ℚ) / (nBoth : ℚ) / 255
          match best with
          | none => if threshold < score then some (dx, dy, score) else best
          | some b =>
            if threshold < score ∧ b.2.2 < score then some (dx, dy, score)
            else best

/-- Shallow embedding of `DistinMapPage._match_pair` (map_tracker_merger.py
lines 732-811).  The grayscale conversions of the two rasters are taken as
inputs (`grayA`, `grayB`) alongside the masks; the score search is exactly
the code's double loop over grid positions. -/
def matchPair (hA wA hB wB : Nat) (grayA grayB : Nat → Nat → Nat)
    (maskA maskB : Mask) (sfx sfy threshold : ℚ) : Option (ℤ × ℤ × ℚ) :=
  let tilesBx := pyRound ((wB : ℚ) / sfx)
  let tilesBy := pyRound ((hB : ℚ) / sfy)
  let tilesAx := pyRound ((wA : ℚ) / sfx)
  let tilesAy := pyRound ((hA : ℚ) / sfy)
  let minContent : ℚ := ((pyRound sfx : ℤ) : ℚ) * ((pyRound sfy : ℤ) : ℚ) * (3 / 10)
  match contentBBox hA wA maskA, contentBBox hB wB maskB with
  | some ba, some bb =>
    ((intRange (-(tilesBx - 1)) tilesAx).flatMap fun nx =>
        (intRange (-(tilesBy - 1)) tilesAy).map fun ny => (nx, ny)).foldl
      (matchStep hA wA hB wB grayA grayB maskA maskB sfx sfy minContent
        threshold ba bb) none
  | _, _ => none

/-- The tile step used by `DistinMapPage`: `force_size * scale`
= 600 * 0.1625 = 97.5 pixels (map_tracker_merger.py lines 674-675). -/
def stepF : ℚ := 600 * (1625 / 10000)

/-- `_match_pair` as called on a `DistinMapPage`: both steps equal `stepF`
and the threshold is the default 0.85. -/
def matchPairInst (hA wA hB wB : Nat) (grayA grayB : Nat → Nat → Nat)
    (maskA maskB : Mask) : Option (ℤ × ℤ × ℚ) :=
  matchPair hA wA hB wB grayA grayB maskA maskB stepF stepF (85 / 100)

theorem foldl_none_of_step_none {α β : Type} (f : Option β → α → Option β)
    (l : List α) (h : ∀ c ∈ l, f none c = none) : l.foldl f none = none := by
  induction l with
  | nil => rfl
  | cons a t ih =>
    rw [List.foldl_cons, h a (List.mem_cons_self a t)]
    exact ih fun c hc => h c (List.mem_cons_of_mem a hc)

theorem foldl_preserve {α β : Type} (P : β → Prop) (f : β → α → β)
    (l : List α) (b : β) (hb : P b)
    (hstep : ∀ x c, c ∈ l → P x → P (f x c)) : P (l.foldl f b) := by
  induction l generalizing b with
  | nil => exact hb
  | cons a t ih =>
    rw [List.foldl_cons]
    exact ih (f b a) (hstep b a (List.mem_cons_self a t) hb)
      fun x c hc => hstep x c (List.mem_cons_of_mem a hc)

theorem matchStep_none (hA wA hB wB : Nat) (grayA grayB : Nat → Nat → Nat)
    (maskA maskB : Mask) (sfx sfy mc th : ℚ) (ba bb : BBox) (c : ℤ × ℤ)
    (hsep : ¬ (c.1 = 0 ∧ c.2 = 0) →
      bboxSeparated ba bb (pyRound ((c.1 : ℚ) * sfx))
        (pyRound ((c.2 : ℚ) * sfy))) :
    matchStep hA wA hB wB grayA grayB maskA maskB sfx sfy mc th ba bb
      none c = none := by
  unfold matchStep
  dsimp only
  by_cases h0 : c.1 = 0 ∧ c.2 = 0
  · rw [if_pos h0]
  · rw [if_neg h0, if_pos (hsep h0)]

/-- C4: when the two content bounding boxes are disjoint at every
candidate grid-aligned offset of the search (every candidate is rejected
by the bounding-box pruning before any pixel comparison), `_match_pair`
returns no match. -/
theorem matchPair_none_of_bbox_disjoint (hA wA hB wB : Nat)
    (grayA grayB : Nat → Nat → Nat) (maskA maskB : Mask)
    (hdisj : ∀ ba, contentBBox hA wA maskA = some ba →
      ∀ bb, contentBBox hB wB maskB = some bb →
      ∀ nx ∈ intRange (-(pyRound ((wB : ℚ) / stepF) - 1))
        (pyRound ((wA : ℚ) / stepF)),
      ∀ ny ∈ intRange (-(pyRound ((hB : ℚ) / stepF) - 1))
        (pyRound ((hA : ℚ) / stepF)),
      ¬ (nx = 0 ∧ ny = 0) →
      bboxSeparated ba bb (pyRound ((nx : ℚ) * stepF))
        (pyRound ((ny : ℚ) * stepF))) :
    matchPairInst hA wA hB wB grayA grayB maskA maskB = none := by
  unfold matchPairInst matchPair
  dsimp only
  cases hba : contentBBox hA wA maskA with
  | none => rfl
  | some ba =>
    cases hbb : contentBBox hB wB maskB with
    | none => rfl
    | some bb =>
      dsimp only
      apply foldl_none_of_step_none
      intro c hc
      simp only [List.mem_flatMap, List.mem_map] at hc
      obtain ⟨nx, hnx, ny, hny, rfl⟩ := hc
      apply matchStep_none
      intro h0
      exact hdisj ba hba bb hbb nx hnx ny hny h0

/-- Witness for `matchPair_none_of_bbox_disjoint`: two 2x2 rasters whose
single land pixels sit at the origin; the candidate range is empty so the
disjointness hypothesis holds vacuously and the matcher reports no
match. -/
theorem matchPair_none_of_bbox_disjoint_witness :
    matchPairInst 2 2 2 2 (fun _ _ => 5) (fun _ _ => 5)
      (fun y x => y == 0 && x == 0) (fun y x => y == 0 && x == 0) =
      none := by
  apply matchPair_none_of_bbox_disjoint
  intro ba hba bb hbb nx hnx ny hny h0
  exfalso
  have h1 : pyRound (((2 : Nat) : ℚ) / stepF) = 0 := by
    unfold pyRound stepF
    norm_num
  rw [h1] at hnx
  simp [intRange] at hnx

theorem one_le_stepF : (1 : ℚ) ≤ stepF := by norm_num [stepF]

theorem pyRound_ge_one {q : ℚ} (h : 1 ≤ q) : 1 ≤ pyRound q := by
  have hf : 1 ≤ ⌊q⌋ := by
    rw [Int.le_floor]
    exact_mod_cast h
  unfold pyRound
  dsimp only
  split
  · exact hf
  · split
    · omega
    · split
      · exact hf
      · omega

theorem pyRound_le_neg_one {q : ℚ} (h : q ≤ -1) : pyRound q ≤ -1 := by
  have hf : ⌊q⌋ ≤ -1 := by
    have h1 : (⌊q⌋ : ℚ) ≤ q := Int.floor_le q
    have h2 : (⌊q⌋ : ℚ) ≤ -1 := le_trans h1 h
    exact_mod_cast h2
  have hf2 : ¬ (q - (⌊q⌋ : ℚ) < 1 / 2) → ⌊q⌋ ≤ -2 := by
    intro hr
    push_neg at hr
    have h1 : (⌊q⌋ : ℚ) ≤ q - 1 / 2 := by linarith
    have h2 : (⌊q⌋ : ℚ) < -1 := by linarith
    have h3 : ⌊q⌋ < -1 := by exact_mod_cast h2
    omega
  unfold pyRound
  dsimp only
  split
  · exact hf
  · rename_i hr
    have h4 := hf2 hr
    split
    · omega
    · split
      · omega
      · omega

theorem pyRound_stepF_ne_zero (n : ℤ) (hn : n ≠ 0) :
    pyRound ((n : ℚ) * stepF) ≠ 0 := by
  rcases lt_or_gt_of_ne hn with hneg | hpos
  · have hn1 : n ≤ -1 := by omega
    have h1 : (n : ℚ) ≤ -1 := by exact_mod_cast hn1
    have h2 : (n : ℚ) * stepF ≤ -1 := by nlinarith [one_le_stepF]
    have h3 := pyRound_le_neg_one h2
    omega
  · have hn1 : 1 ≤ n := by omega
    have h1 : (1 : ℚ) ≤ (n : ℚ) := by exact_mod_cast hn1
    have h2 : (1 : ℚ) ≤ (n : ℚ) * stepF := by nlinarith [one_le_stepF]
    have h3 := pyRound_ge_one h2
    omega

theorem matchStep_all_ne (hA wA hB wB : Nat) (grayA grayB : Nat → Nat → Nat)
    (maskA maskB : Mask) (mc th : ℚ) (ba bb : BBox)
    (best : Option (ℤ × ℤ × ℚ)) (c : ℤ × ℤ)
    (hbest : best.all (fun r => !(r.1 == 0 && r.2.1 == 0)) = true) :
    (matchStep hA wA hB wB grayA grayB maskA maskB stepF stepF mc th ba bb
        best c).all (fun r => !(r.1 == 0 && r.2.1 == 0)) = true := by
  have hkey : ∀ s : ℚ, ¬ (c.1 = 0 ∧ c.2 = 0) →
      (Option.all (fun r => !(r.1 == 0 && r.2.1 == 0))
        (some (pyRound ((c.1 : ℚ) * stepF), pyRound ((c.2 : ℚ) * stepF), s))) =
        true := by
    intro s h0
    simp only [Option.all_some, Bool.not_eq_true', Bool.and_eq_false_iff,
      beq_eq_false_iff_ne, ne_eq]
    rcases Decidable.not_and_iff_or_not.mp h0 with h | h
    · exact Or.inl (pyRound_stepF_ne_zero c.1 h)
    · exact Or.inr (pyRound_stepF_ne_zero c.2 h)
  unfold matchStep
  dsimp only
  by_cases h0 : c.1 = 0 ∧ c.2 = 0
  · rw [if_pos h0]; exact hbest
  · rw [if_neg h0]
    split
    · exact hbest
    · split
      · exact hbest
      · split
        · exact hbest
        · split
          · exact hbest
          · split
            · split
              · exact hkey _ h0
              · exact hbest
            · split
              · exact hkey _ h0
              · exact hbest

/-- C9: `_match_pair` never returns the identity offset: the grid position
nx = ny = 0 is skipped and, with the 97.5-pixel tile step, every other
grid position rounds to a nonzero pixel offset, so any returned (dx, dy)
is nonzero. -/
theorem matchPair_never_identity_offset (hA wA hB wB : Nat)
    (grayA grayB : Nat → Nat → Nat) (maskA maskB : Mask) :
    (matchPairInst hA wA hB wB grayA grayB maskA maskB).all
      (fun r => !(r.1 == 0 && r.2.1 == 0)) = true := by
  unfold matchPairInst matchPair
  dsimp only
  cases hba : contentBBox hA wA maskA with
  | none => rfl
  | some ba =>
    cases hbb : contentBBox hB wB maskB with
    | none => rfl
    | some bb =>
      dsimp only
      exact foldl_preserve
        (fun o => Option.all (fun r => !(r.1 == 0 && r.2.1 == 0)) o = true)
        _ _ none rfl
        (fun x c hc hx =>
          matchStep_all_ne hA wA hB wB grayA grayB maskA maskB _ _ ba bb x c hx)

/-! ## Barrier-driven territory partition (`DistinMapPage._manual_split`) -/

/-- The everywhere-false mask. -/
def mfalse : Mask := fun _ _ => false

/-- OpenCV 8-bit BGR to grayscale conversion, fixed point:
`(1868 B + 9617 G + 4899 R + 8192) >> 14`. -/
def cvtGray (b g r : Nat) : Nat := (1868 * b + 9617 * g + 4899 * r + 8192) / 16384

/-- `DistinMapPage._content_mask` (lines 718-722): land = gray > 1. -/
def contentMask (img : Img) : Mask := fun y x =>
  decide (1 < cvtGray (img.px y x 0) (img.px y x 1) (img.px y x 2))

/-- Dilation of a mask by a list of (dy, dx) offsets, restricted to the
h x w canvas (out-of-bounds neighbours contribute nothing, as with
OpenCV's constant border for dilation). -/
def dilateWith (offs : List (ℤ × ℤ)) (h w : Nat) (m : Mask) : Mask :=
  fun y x =>
    offs.any fun d =>
      let ny := (y : ℤ) + d.1
      let nx := (x : ℤ) + d.2
      decide (0 ≤ ny) && decide (ny < (h : ℤ)) && decide (0 ≤ nx) &&
        decide (nx < (w : ℤ)) && m ny.toNat nx.toNat

/-- Offsets of `cv2.getStructuringElement(cv2.MORPH_ELLIPSE, (5, 5))`:
full middle three rows, only the central column in the first and last
row. -/
def ellipse5Offsets : List (ℤ × ℤ) :=
  [((-2 : ℤ), (0 : ℤ))] ++
    ((List.range 3).flatMap fun r =>
      (List.range 5).map fun c => ((r : ℤ) - 1, (c : ℤ) - 2)) ++
    [((2 : ℤ), (0 : ℤ))]

/-- Offsets of the 3x3 cross structuring element
`cv2.getStructuringElement(cv2.MORPH_CROSS, (3, 3))`. -/
def crossOffsets : List (ℤ × ℤ) :=
  [((0 : ℤ), (0 : ℤ)), ((-1 : ℤ), (0 : ℤ)), ((1 : ℤ), (0 : ℤ)),
    ((0 : ℤ), (-1 : ℤ)), ((0 : ℤ), (1 : ℤ))]

/-- A map's content mask written onto the canvas at position (px, py),
cropped to the canvas (lines 1036-1040), before any dilation. -/
def placedContentMask (canvasH canvasW : Nat) (img : Img) (px py : Nat) :
    Mask := fun y x =>
  decide (py ≤ y) && decide (y < min (py + img.h) canvasH) &&
    decide (px ≤ x) && decide (x < min (px + img.w) canvasW) &&
    contentMask img (y - py) (x - px)

/-- Step 1 of `_manual_split` (lines 1030-1043): the placed content mask
dilated twice with the 5x5 elliptical kernel. -/
def landMaskOf (canvasH canvasW : Nat) (img : Img) (px py : Nat) : Mask :=
  dilateWith ellipse5Offsets canvasH canvasW
    (dilateWith ellipse5Offsets canvasH canvasW
      (placedContentMask canvasH canvasW img px py))

/-- The land masks of all placed maps of a group. -/
def landMasks (canvasH canvasW : Nat) (maps : List (Img × Nat × Nat)) :
    List Mask :=
  maps.map fun m => landMaskOf canvasH canvasW m.1 m.2.1 m.2.2

/-- The accumulation loop over land masks (lines 1046-1050): the first
component is the running union `any_land`, the second the pixels hit by
at least two masks (`multi_hit`, i.e. `overlap`). -/
def accStep (acc : Mask × Mask) (m : Mask) : Mask × Mask :=
  (fun y x => acc.1 y x || m y x,
   fun y x => acc.2 y x || (acc.1 y x && m y x))

def accLand (masks : List Mask) : Mask × Mask :=
  masks.foldl accStep (mfalse, mfalse)

/-- Owner initialization (lines 1062-1066): -1 = non-land, the map index
on pixels exclusive to one map, -2 on overlap pixels. -/
def exclStep (masks : List Mask) (ov : Mask) (acc : Nat → Nat → ℤ)
    (i : Nat) : Nat → Nat → ℤ := fun y x =>
  if (masks.getD i mfalse) y x && !(ov y x) then (i : ℤ) else acc y x

def owner0 (masks : List Mask) : Nat → Nat → ℤ :=
  let ov := (accLand masks).2
  let base := (List.range masks.length).foldl
    (exclStep masks ov) (fun _ _ => (-1 : ℤ))
  fun y x => if ov y x then -2 else base y x

/-- The dilated barrier (line 1159): one cross-kernel dilation closes
diagonal gaps so the wall is a 4-connected separator. -/
def wallOf (h w : Nat) (barrier : Mask) : Mask :=
  dilateWith crossOffsets h w barrier

/-- The fillable region (line 1163): unresolved overlap off the wall. -/
def fillableOf (h w : Nat) (masks : List Mask) (barrier : Mask) : Mask :=
  fun y x => decide (owner0 masks y x = -2) && !(wallOf h w barrier y x)

/-- Step 3 of `_manual_split` (lines 1177-1213): every 4-connected
component of the fillable region — labeled by `L` with labels
1 .. nCC-1, the output of `cv2.connectedComponents` taken as an input —
is bulk-assigned to the map with the most exclusive pixels on the
component's 4-connected ring; a component touching no exclusive region
goes to the map (with nonempty exclusive region) nearest according to the
distance oracle `dist`, which models the `cv2.distanceTransform` minima
over the component.  The component mask for label `k`
(`cc_labels == cc_id`), restricted to the canvas. -/
def ccMask (h w : Nat) (L : Nat → Nat → Nat) (k : Nat) : Mask :=
  fun y x => decide (y < h) && decide (x < w) && decide (L y x = k)

/-- The argmax over maps of exclusive pixels adjacent to component `k`
(lines 1184-1191): (-1, 0) when no map touches the component. -/
def bestAdjacent (h w n : Nat) (excl : Nat → Mask) (L : Nat → Nat → Nat)
    (k : Nat) : ℤ × Nat :=
  let cc := ccMask h w L k
  let nbr : Mask := fun y x => dilateWith crossOffsets h w cc y x && !(cc y x)
  let cnt : Nat → Nat := fun i =>
    ((pixList h w).filter fun p => nbr p.1 p.2 && excl i p.1 p.2).length
  (List.range n).foldl
    (fun bp i => if bp.2 < cnt i then ((i : ℤ), cnt i) else bp)
    ((-1 : ℤ), 0)

/-- The distance-transform argmin over maps with nonempty exclusive
region (lines 1196-1211); `none` plays the role of infinity. -/
def bestByDistance (h w n : Nat) (excl : Nat → Mask)
    (dist : Nat → Nat → ℚ) (k : Nat) : ℤ × Option ℚ :=
  (List.range n).foldl
    (fun bd i =>
      if ((pixList h w).filter fun p => excl i p.1 p.2).length ≠ 0 then
        match bd.2 with
        | none => ((i : ℤ), some (dist k i))
        | some d =>
          if dist k i < d then ((i : ℤ), some (dist k i)) else bd
      else bd)
    ((-1 : ℤ), (none : Option ℚ))

/-- One iteration of the component loop for label `k`. -/
def ccStep (h w n : Nat) (excl : Nat → Mask) (L : Nat → Nat → Nat)
    (dist : Nat → Nat → ℚ) (acc : Nat → Nat → ℤ) (k : Nat) :
    Nat → Nat → ℤ :=
  let cc := ccMask h w L k
  let bestPair := bestAdjacent h w n excl L k
  if 0 ≤ bestPair.1 then
    fun y x => if cc y x then bestPair.1 else acc y x
  else
    let bestDt := bestByDistance h w n excl dist k
    if 0 ≤ bestDt.1 then
      fun y x => if cc y x then bestDt.1 else acc y x
    else acc

def ccAssign (h w n : Nat) (excl : Nat → Mask) (L : Nat → Nat → Nat)
    (nCC : Nat) (dist : Nat → Nat → ℚ) (ow : Nat → Nat → ℤ) :
    Nat → Nat → ℤ :=
  (List.range' 1 (nCC - 1)).foldl (ccStep h w n excl L dist) ow

/-- `sorted(range(n_maps), key=lambda i: names_list[i])` (line 1220):
Python's sort is stable, and so is insertion sort, so the two orders
coincide. -/
def alphaOrder (names : List String) : List Nat :=
  List.insertionSort (fun i j => names.getD i "" ≤ names.getD j "")
    (List.range names.length)

/-- One iteration of the fallback loop (lines 1221-1224): map `i` claims
the still-unresolved pixels its land mask covers. -/
def fbStep (masks : List Mask) (acc : (Nat → Nat → ℤ) × Mask) (i : Nat) :
    (Nat → Nat → ℤ) × Mask :=
  let assign : Mask := fun y x => acc.2 y x && (masks.getD i mfalse) y x
  (fun y x => if assign y x then (i : ℤ) else acc.1 y x,
   fun y x => acc.2 y x && !(assign y x))

/-- The fallback pass of `_manual_split` (lines 1216-1224): remaining
unresolved land pixels are given to maps in alphabetical name order,
each map taking the still-unclaimed pixels its land mask covers. -/
def fallbackAssign (masks : List Mask) (names : List String)
    (anyLand : Mask) (ow : Nat → Nat → ℤ) : Nat → Nat → ℤ :=
  let wu0 : Mask := fun y x => decide (ow y x = -2) && anyLand y x
  ((alphaOrder names).foldl (fbStep masks) (ow, wu0)).1

/-- The complete non-skip partition of `_manual_split` on already-built
land masks (lines 1046-1225): owner initialization, component assignment
against the snapshotted exclusive regions, deterministic fallback. -/
def splitOwner (h w : Nat) (masks : List Mask) (names : List String)
    (L : Nat → Nat → Nat) (nCC : Nat) (dist : Nat → Nat → ℚ) :
    Nat → Nat → ℤ :=
  let ow0 := owner0 masks
  let excl := fun (i : Nat) => fun y x => decide (ow0 y x = (i : ℤ))
  let ow1 := ccAssign h w masks.length excl L nCC dist ow0
  fallbackAssign masks names (accLand masks).1 ow1

/-- The final per-map ownership masks of the non-skip path
(line 1230): `fin[i] = (owner == i)`. -/
def splitMasks (h w : Nat) (masks : List Mask) (names : List String)
    (L : Nat → Nat → Nat) (nCC : Nat) (dist : Nat → Nat → ℚ) :
    Nat → Mask :=
  fun i y x => decide (splitOwner h w masks names L nCC dist y x = (i : ℤ))

/-- The whole of `_manual_split` at the mask level: the early no-overlap
exit (lines 1053-1057) and the ESC skip (lines 1133-1139) both export the
land masks unchanged, otherwise the barrier-driven partition runs. -/
def manualSplitMasks (canvasH canvasW : Nat) (maps : List (Img × Nat × Nat))
    (names : List String) (skip : Bool) (L : Nat → Nat → Nat) (nCC : Nat)
    (dist : Nat → Nat → ℚ) : List Mask :=
  let lms := landMasks canvasH canvasW maps
  let ov := (accLand lms).2
  if (!((pixList canvasH canvasW).any fun p => ov p.1 p.2)) || skip then lms
  else
    (List.range lms.length).map fun i =>
      splitMasks canvasH canvasW lms names L nCC dist i

theorem accLand_fst_fold (l : List Mask) (acc : Mask × Mask) (y x : Nat) :
    (l.foldl accStep acc).1 y x = (acc.1 y x || l.any fun m => m y x) := by
  induction l generalizing acc with
  | nil => simp
  | cons m t ih =>
    rw [List.foldl_cons, ih]
    simp [accStep, Bool.or_assoc]

theorem accLand_fst (masks : List Mask) (y x : Nat) :
    (accLand masks).1 y x = masks.any fun m => m y x := by
  unfold accLand
  rw [accLand_fst_fold]
  simp [mfalse]

theorem accLand_snd_fold_imp (l : List Mask) (acc : Mask × Mask) (y x : Nat)
    (h : acc.2 y x = true → acc.1 y x = true) :
    (l.foldl accStep acc).2 y x = true → (l.foldl accStep acc).1 y x = true := by
  induction l generalizing acc with
  | nil => exact h
  | cons m t ih =>
    rw [List.foldl_cons]
    apply ih
    intro h2
    simp only [accStep, Bool.or_eq_true, Bool.and_eq_true] at h2 ⊢
    tauto

theorem overlap_imp_anyLand (masks : List Mask) (y x : Nat)
    (h : (accLand masks).2 y x = true) : (accLand masks).1 y x = true :=
  accLand_snd_fold_imp masks (mfalse, mfalse) y x (by simp [mfalse]) h

theorem anyLand_exists_index (masks : List Mask) (y x : Nat)
    (h : (accLand masks).1 y x = true) :
    ∃ i, i < masks.length ∧ (masks.getD i mfalse) y x = true := by
  rw [accLand_fst, List.any_eq_true] at h
  obtain ⟨m, hm, hmx⟩ := h
  obtain ⟨i, hi, heq⟩ := List.mem_iff_getElem.mp hm
  refine ⟨i, hi, ?_⟩
  rw [List.getD_eq_getElem _ _ hi, heq]
  exact hmx

theorem anyLand_of_index (masks : List Mask) (y x i : Nat)
    (hi : i < masks.length) (hc : (masks.getD i mfalse) y x = true) :
    (accLand masks).1 y x = true := by
  rw [accLand_fst, List.any_eq_true]
  refine ⟨masks.getD i mfalse, ?_, hc⟩
  rw [List.getD_eq_getElem _ _ hi]
  exact List.getElem_mem hi

theorem exclFold_cases (masks : List Mask) (ov : Mask) (l : List Nat)
    (acc : Nat → Nat → ℤ) (y x : Nat) :
    (l.foldl (exclStep masks ov) acc) y x = acc y x ∨
      ∃ i ∈ l, (l.foldl (exclStep masks ov) acc) y x = (i : ℤ) ∧
        (masks.getD i mfalse) y x = true ∧ ov y x = false := by
  induction l generalizing acc with
  | nil => exact Or.inl rfl
  | cons a t ih =>
    rw [List.foldl_cons]
    rcases ih (exclStep masks ov acc a) with hsame | ⟨i, hi, hv, hm, ho⟩
    · rw [hsame]
      unfold exclStep
      cases hb : ((masks.getD a mfalse) y x && !(ov y x)) with
      | false => left; rw [if_neg]; simp [hb]
      | true =>
        right
        refine ⟨a, List.mem_cons_self a t, ?_⟩
        simp only [Bool.and_eq_true, Bool.not_eq_true'] at hb
        rw [if_pos (by simp [hb.1, hb.2])]
        exact ⟨rfl, hb.1, hb.2⟩
    · exact Or.inr ⟨i, List.mem_cons_of_mem a hi, hv, hm, ho⟩

theorem exclFold_covers (masks : List Mask) (ov : Mask) (l : List Nat)
    (acc : Nat → Nat → ℤ) (y x : Nat)
    (h : (∃ i ∈ l, (masks.getD i mfalse) y x = true ∧ ov y x = false) ∨
      0 ≤ acc y x) :
    0 ≤ (l.foldl (exclStep masks ov) acc) y x := by
  induction l generalizing acc with
  | nil =>
    rcases h with ⟨i, hi, -⟩ | h
    · exact absurd hi (List.not_mem_nil i)
    · exact h
  | cons a t ih =>
    rw [List.foldl_cons]
    apply ih
    rcases h with ⟨i, hi, hm, ho⟩ | hpos
    · rcases List.mem_cons.mp hi with rfl | hit
      · right
        unfold exclStep
        rw [if_pos (by simp [hm, ho])]
        exact Int.natCast_nonneg i
      · exact Or.inl ⟨i, hit, hm, ho⟩
    · right
      unfold exclStep
      split
      · exact Int.natCast_nonneg a
      · exact hpos

theorem owner0_eq_neg2_iff (masks : List Mask) (y x : Nat) :
    owner0 masks y x = -2 ↔ (accLand masks).2 y x = true := by
  unfold owner0
  cases hov : (accLand masks).2 y x with
  | true => simp [hov]
  | false =>
    rw [if_neg (by simp [hov])]
    simp only [Bool.false_eq_true, iff_false]
    rcases exclFold_cases masks (accLand masks).2 (List.range masks.length)
        (fun _ _ => (-1 : ℤ)) y x with hsame | ⟨i, -, hv, -⟩
    · rw [hsame]; decide
    · rw [hv]; omega

theorem owner0_nonneg_iff (masks : List Mask) (y x : Nat) :
    0 ≤ owner0 masks y x ↔
      ((accLand masks).1 y x = true ∧ (accLand masks).2 y x = false) := by
  unfold owner0
  cases hov : (accLand masks).2 y x with
  | true => rw [if_pos (by simp [hov])]; simp
  | false =>
    rw [if_neg (by simp [hov])]
    constructor
    · intro hpos
      rcases exclFold_cases masks (accLand masks).2 (List.range masks.length)
          (fun _ _ => (-1 : ℤ)) y x with hsame | ⟨i, hi, -, hm, -⟩
      · rw [hsame] at hpos; omega
      · exact ⟨anyLand_of_index masks y x i (List.mem_range.mp hi) hm, rfl⟩
    · rintro ⟨hany, -⟩
      obtain ⟨i, hi, hm⟩ := anyLand_exists_index masks y x hany
      exact exclFold_covers masks (accLand masks).2 (List.range masks.length)
        (fun _ _ => (-1 : ℤ)) y x
        (Or.inl ⟨i, List.mem_range.mpr hi, hm, hov⟩)

theorem owner0_lt (masks : List Mask) (y x : Nat) :
    owner0 masks y x < (masks.length : ℤ) := by
  unfold owner0
  split
  · omega
  · rcases exclFold_cases masks (accLand masks).2 (List.range masks.length)
        (fun _ _ => (-1 : ℤ)) y x with hsame | ⟨i, hi, hv, -, -⟩
    · rw [hsame]; omega
    · rw [hv]
      exact_mod_cast List.mem_range.mp hi

theorem bestAdjacent_fst (h w n : Nat) (excl : Nat → Mask)
    (L : Nat → Nat → Nat) (k : Nat) :
    (bestAdjacent h w n excl L k).1 = -1 ∨
      (0 ≤ (bestAdjacent h w n excl L k).1 ∧
        (bestAdjacent h w n excl L k).1 < (n : ℤ)) := by
  unfold bestAdjacent
  apply foldl_preserve
    (fun bp : ℤ × Nat => bp.1 = -1 ∨ (0 ≤ bp.1 ∧ bp.1 < (n : ℤ)))
  · exact Or.inl rfl
  · intro bp i hi hbp
    dsimp only
    split
    · exact Or.inr ⟨Int.natCast_nonneg i, by
        show (i : ℤ) < (n : ℤ)
        exact_mod_cast List.mem_range.mp hi⟩
    · exact hbp

theorem bestByDistance_fst (h w n : Nat) (excl : Nat → Mask)
    (dist : Nat → Nat → ℚ) (k : Nat) :
    (bestByDistance h w n excl dist k).1 = -1 ∨
      (0 ≤ (bestByDistance h w n excl dist k).1 ∧
        (bestByDistance h w n excl dist k).1 < (n : ℤ)) := by
  unfold bestByDistance
  apply foldl_preserve
    (fun bd : ℤ × Option ℚ => bd.1 = -1 ∨ (0 ≤ bd.1 ∧ bd.1 < (n : ℤ)))
  · exact Or.inl rfl
  · intro bd i hi hbd
    have hin : (0 : ℤ) ≤ (i : ℤ) ∧ (i : ℤ) < (n : ℤ) :=
      ⟨Int.natCast_nonneg i, by exact_mod_cast List.mem_range.mp hi⟩
    split
    · split
      · exact Or.inr hin
      · split
        · exact Or.inr hin
        · exact hbd
    · exact hbd

theorem ccAssign_cases (h w n : Nat) (excl : Nat → Mask)
    (L : Nat → Nat → Nat) (nCC : Nat) (dist : Nat → Nat → ℚ)
    (ow : Nat → Nat → ℤ) (y x : Nat) :
    ccAssign h w n excl L nCC dist ow y x = ow y x ∨
      (0 ≤ ccAssign h w n excl L nCC dist ow y x ∧
        ccAssign h w n excl L nCC dist ow y x < (n : ℤ) ∧
        y < h ∧ x < w ∧ L y x ≠ 0) := by
  unfold ccAssign
  apply foldl_preserve
    (fun f : Nat → Nat → ℤ => f y x = ow y x ∨
      (0 ≤ f y x ∧ f y x < (n : ℤ) ∧ y < h ∧ x < w ∧ L y x ≠ 0))
  · exact Or.inl rfl
  · intro f k hk hf
    have hk1 : 1 ≤ k := by
      obtain ⟨i, -, rfl⟩ := List.mem_range'.mp hk
      omega
    unfold ccStep
    have hcc : ∀ v : ℤ, 0 ≤ v → v < (n : ℤ) →
        ((if ccMask h w L k y x then v else f y x) = ow y x ∨
          (0 ≤ (if ccMask h w L k y x then v else f y x) ∧
            (if ccMask h w L k y x then v else f y x) <
              (n : ℤ) ∧ y < h ∧ x < w ∧ L y x ≠ 0)) := by
      intro v hv0 hvn
      cases hc : ccMask h w L k y x with
      | false => rw [if_neg (by simp [hc])]; exact hf
      | true =>
        rw [if_pos (by simp [hc])]
        unfold ccMask at hc
        simp only [Bool.and_eq_true, decide_eq_true_eq] at hc
        exact Or.inr ⟨hv0, hvn, hc.1.1, hc.1.2, by omega⟩
    split
    · rename_i hpos
      exact hcc _ hpos
        (by rcases bestAdjacent_fst h w n excl L k with hm | ⟨-, hlt⟩
            · omega
            · exact hlt)
    · dsimp only
      split
      · rename_i hneg hpos
        exact hcc _ hpos
          (by rcases bestByDistance_fst h w n excl dist k with hm | ⟨-, hlt⟩
              · omega
              · exact hlt)
      · exact hf

theorem fbFold_spec (masks : List Mask) (l : List Nat)
    (acc : (Nat → Nat → ℤ) × Mask) (y x : Nat) :
    (l.foldl (fbStep masks) acc).1 y x =
      (if acc.2 y x = true then
        (match l.find? (fun i => (masks.getD i mfalse) y x) with
         | some i => (i : ℤ)
         | none => acc.1 y x)
      else acc.1 y x) := by
  induction l generalizing acc with
  | nil =>
    cases hwu : acc.2 y x <;> simp [hwu]
  | cons a t ih =>
    rw [List.foldl_cons, ih]
    have h1 : (fbStep masks acc a).1 y x =
        (if (acc.2 y x && (masks.getD a mfalse) y x) = true then (a : ℤ)
         else acc.1 y x) := rfl
    have h2 : (fbStep masks acc a).2 y x =
        (acc.2 y x && !(acc.2 y x && (masks.getD a mfalse) y x)) := rfl
    cases hwu : acc.2 y x with
    | false =>
      rw [h2, h1, hwu]
      simp only [Bool.false_and, Bool.false_eq_true, if_false]
    | true =>
      cases hm : (masks.getD a mfalse) y x with
      | true =>
        rw [h2, h1, hwu, hm,
          @List.find?_cons_of_pos _ (fun i => (masks.getD i mfalse) y x) a t hm]
        simp only [Bool.true_and, Bool.not_true, Bool.and_false,
          Bool.false_eq_true, if_false, eq_self_iff_true, if_true]
      | false =>
        rw [h2, h1, hwu, hm,
          @List.find?_cons_of_neg _ (fun i => (masks.getD i mfalse) y x) a t
            (by simp [hm])]
        simp only [Bool.and_false, Bool.not_false, Bool.true_and,
          Bool.false_eq_true, if_false, eq_self_iff_true, if_true]

theorem fallbackAssign_spec (masks : List Mask) (names : List String)
    (anyLand : Mask) (ow : Nat → Nat → ℤ) (y x : Nat) :
    fallbackAssign masks names anyLand ow y x =
      (if ow y x = -2 ∧ anyLand y x = true then
        (match (alphaOrder names).find?
            (fun i => (masks.getD i mfalse) y x) with
         | some i => (i : ℤ)
         | none => ow y x)
      else ow y x) := by
  unfold fallbackAssign
  rw [fbFold_spec]
  by_cases hc : ow y x = -2 ∧ anyLand y x = true
  · rw [if_pos (by simp [hc.1, hc.2]), if_pos hc]
  · rw [if_neg, if_neg hc]
    simp only [Bool.and_eq_true, decide_eq_true_eq, Bool.not_eq_true]
    intro hd
    exact hc ⟨hd.1, hd.2⟩

theorem alphaOrder_mem (names : List String) (i : Nat) :
    i ∈ alphaOrder names ↔ i < names.length := by
  unfold alphaOrder
  rw [(List.perm_insertionSort _ _).mem_iff]
  exact List.mem_range

theorem alphaOrder_nodup (names : List String) : (alphaOrder names).Nodup :=
  (List.perm_insertionSort _ _).nodup_iff.mpr (List.nodup_range _)

theorem alphaOrder_sorted (names : List String) :
    (alphaOrder names).Sorted
      (fun i j => names.getD i "" ≤ names.getD j "") := by
  unfold alphaOrder
  haveI : IsTotal Nat (fun i j => names.getD i "" ≤ names.getD j "") :=
    ⟨fun a b => le_total _ _⟩
  haveI : IsTrans Nat (fun i j => names.getD i "" ≤ names.getD j "") :=
    ⟨fun a b c hab hbc => le_trans hab hbc⟩
  exact List.sorted_insertionSort _ _

/-- C5: in the fallback pass, a still-unresolved land pixel goes to the
alphabetically first map whose land mask covers it (here: the covering
map whose name is strictly smaller than that of every other covering
map), deterministically. -/
theorem fallback_first_alpha (masks : List Mask) (names : List String)
    (anyLand : Mask) (ow : Nat → Nat → ℤ) (y x i : Nat)
    (hn : names.length = masks.length)
    (hunres : ow y x = -2) (hland : anyLand y x = true)
    (hi : i < masks.length) (hcov : (masks.getD i mfalse) y x = true)
    (hmin : ∀ j, j < masks.length → (masks.getD j mfalse) y x = true →
      j ≠ i → names.getD i "" < names.getD j "") :
    fallbackAssign masks names anyLand ow y x = (i : ℤ) := by
  rw [fallbackAssign_spec, if_pos ⟨hunres, hland⟩]
  have hmem : i ∈ alphaOrder names := (alphaOrder_mem names i).mpr (by omega)
  obtain ⟨s, t, hst⟩ := List.append_of_mem hmem
  have hsorted := alphaOrder_sorted names
  have hnodup := alphaOrder_nodup names
  rw [hst] at hsorted hnodup ⊢
  have hnotins : i ∉ s := by
    intro hins
    have := (List.nodup_append.mp hnodup).2.2
    exact this hins (List.mem_cons_self i t)
  have hsfail : ∀ j ∈ s, (masks.getD j mfalse) y x = false := by
    intro j hj
    cases hval : (masks.getD j mfalse) y x with
    | false => rfl
    | true =>
      exfalso
      have hjmem : j ∈ alphaOrder names := by
        rw [hst]; exact List.mem_append_left _ hj
      have hjlt : j < masks.length := by
        have := (alphaOrder_mem names j).mp hjmem
        omega
      have hji : j ≠ i := fun he => hnotins (he ▸ hj)
      have hle : names.getD j "" ≤ names.getD i "" :=
        (List.pairwise_append.mp hsorted).2.2 j hj i (List.mem_cons_self i t)
      exact absurd hle (not_le.mpr (hmin j hjlt hval hji))
  have hfind : List.find? (fun j => (masks.getD j mfalse) y x)
      (s ++ i :: t) = some i := by
    rw [List.find?_append]
    have h1 : List.find? (fun j => (masks.getD j mfalse) y x) s = none :=
      List.find?_eq_none.mpr (fun j hj => by rw [hsfail j hj]; simp)
    rw [h1, List.find?_cons_of_pos _ (by simp [hcov])]
    rfl
  rw [hfind]

/-- Witness for `fallback_first_alpha`: maps "mapA" and "mapB" both cover
an unresolved wall pixel; it is assigned to "mapA". -/
theorem fallback_first_alpha_witness :
    fallbackAssign [(fun _ _ => true), (fun _ _ => true)] ["mapA", "mapB"]
      (fun _ _ => true) (fun _ _ => -2) 0 0 = ((0 : Nat) : ℤ) := by
  apply fallback_first_alpha
  · rfl
  · rfl
  · rfl
  · decide
  · decide
  · intro j hjlt hjc hji
    have hj2 : j < 2 := by simpa using hjlt
    have hj1 : j = 1 := by omega
    subst hj1
    simp only [List.getD_cons_succ, List.getD_cons_zero]
    rw [String.lt_iff_toList_lt]
    decide

/-- C1: for land masks with a non-empty overlap and any barrier (entering
through the component labeling `L` of the fillable region), the non-skip
partition of `_manual_split` produces ownership masks that are pairwise
disjoint and whose union is exactly `any_land`: every land pixel belongs
to exactly one map and none stays unresolved. -/
theorem manualSplit_partitions_land (h w : Nat) (masks : List Mask)
    (names : List String) (barrier : Mask) (L : Nat → Nat → Nat) (nCC : Nat)
    (dist : Nat → Nat → ℚ)
    (hn : names.length = masks.length)
    (hL : ∀ y < h, ∀ x < w, L y x ≠ 0 →
      fillableOf h w masks barrier y x = true)
    (hov : ∃ y, y < h ∧ ∃ x, x < w ∧ (accLand masks).2 y x = true) :
    ∀ y < h, ∀ x < w,
      (((accLand masks).1 y x = true ↔
        ∃ i, i < masks.length ∧
          splitMasks h w masks names L nCC dist i y x = true) ∧
       ∀ i j : Nat, splitMasks h w masks names L nCC dist i y x = true →
         splitMasks h w masks names L nCC dist j y x = true → i = j) := by
  intro y hy x hx
  set ow1 := ccAssign h w masks.length
    (fun i yy xx => decide (owner0 masks yy xx = (i : ℤ))) L nCC dist
    (owner0 masks) with how1
  have hOdef : splitOwner h w masks names L nCC dist y x =
      fallbackAssign masks names (accLand masks).1 ow1 y x := rfl
  have hcc := ccAssign_cases h w masks.length
    (fun i yy xx => decide (owner0 masks yy xx = (i : ℤ))) L nCC dist
    (owner0 masks) y x
  rw [← how1] at hcc
  have hfb := fallbackAssign_spec masks names (accLand masks).1 ow1 y x
  have hback : ∀ i : Nat,
      splitOwner h w masks names L nCC dist y x = (i : ℤ) →
      (accLand masks).1 y x = true := by
    intro i hOi
    rw [hOdef, hfb] at hOi
    by_cases hcond : ow1 y x = -2 ∧ (accLand masks).1 y x = true
    · exact hcond.2
    · rw [if_neg hcond] at hOi
      rcases hcc with hsame | ⟨-, -, -, -, hLne⟩
      · have hpos : 0 ≤ owner0 masks y x := by
          rw [← hsame, hOi]
          exact Int.natCast_nonneg i
        exact ((owner0_nonneg_iff masks y x).mp hpos).1
      · have hfill := hL y hy x hx hLne
        unfold fillableOf at hfill
        simp only [Bool.and_eq_true, decide_eq_true_eq] at hfill
        exact overlap_imp_anyLand masks y x
          ((owner0_eq_neg2_iff masks y x).mp hfill.1)
  have hforward : (accLand masks).1 y x = true →
      ∃ i, i < masks.length ∧
        splitOwner h w masks names L nCC dist y x = (i : ℤ) := by
    intro hany
    by_cases hb2 : ow1 y x = -2
    · obtain ⟨i0, hi0, hm0⟩ := anyLand_exists_index masks y x hany
      have hfind : ∃ j, (alphaOrder names).find?
          (fun i => (masks.getD i mfalse) y x) = some j := by
        cases hfd : (alphaOrder names).find?
            (fun i => (masks.getD i mfalse) y x) with
        | some j => exact ⟨j, rfl⟩
        | none =>
          exfalso
          have hnone := List.find?_eq_none.mp hfd i0
            ((alphaOrder_mem names i0).mpr (by omega))
          simp [hm0] at hnone
      obtain ⟨j, hj⟩ := hfind
      have hjlt : j < masks.length := by
        have := (alphaOrder_mem names j).mp (List.mem_of_find?_eq_some hj)
        omega
      refine ⟨j, hjlt, ?_⟩
      rw [hOdef, hfb, if_pos ⟨hb2, hany⟩, hj]
    · have hge : 0 ≤ ow1 y x ∧ ow1 y x < (masks.length : ℤ) := by
        rcases hcc with hsame | ⟨hpos, hlt, -⟩
        · rw [hsame]
          have hovf : (accLand masks).2 y x = false := by
            cases hov2 : (accLand masks).2 y x with
            | false => rfl
            | true =>
              exfalso
              exact hb2 (by
                rw [hsame]
                exact (owner0_eq_neg2_iff masks y x).mpr hov2)
          exact ⟨(owner0_nonneg_iff masks y x).mpr ⟨hany, hovf⟩,
            owner0_lt masks y x⟩
        · exact ⟨hpos, hlt⟩
      refine ⟨(ow1 y x).toNat, by omega, ?_⟩
      rw [hOdef, hfb, if_neg (fun hc => hb2 hc.1),
        Int.toNat_of_nonneg hge.1]
  constructor
  · constructor
    · intro hany
      obtain ⟨i, hi, hOi⟩ := hforward hany
      exact ⟨i, hi, decide_eq_true hOi⟩
    · rintro ⟨i, -, hdec⟩
      exact hback i (of_decide_eq_true hdec)
  · intro i j hdi hdj
    have h1 := of_decide_eq_true hdi
    have h2 := of_decide_eq_true hdj
    have : (i : ℤ) = (j : ℤ) := by rw [← h1, ← h2]
    exact_mod_cast this

/-- Witness for `manualSplit_partitions_land`: two 3x3 masks overlapping
on the middle column, no barrier, the overlap labeled as one component. -/
theorem manualSplit_partitions_land_witness :
    (((accLand [(fun _ x => decide (x ≤ 1) : Mask),
        (fun _ x => decide (1 ≤ x) : Mask)]).1 0 0 = true ↔
      ∃ i, i < ([(fun _ x => decide (x ≤ 1) : Mask),
        (fun _ x => decide (1 ≤ x) : Mask)]).length ∧
        splitMasks 3 3 [(fun _ x => decide (x ≤ 1) : Mask),
          (fun _ x => decide (1 ≤ x) : Mask)] ["a", "b"]
          (fun _ x => if x = 1 then 1 else 0) 2 (fun _ _ => 0) i 0 0 =
          true) ∧
     ∀ i j : Nat,
       splitMasks 3 3 [(fun _ x => decide (x ≤ 1) : Mask),
         (fun _ x => decide (1 ≤ x) : Mask)] ["a", "b"]
         (fun _ x => if x = 1 then 1 else 0) 2 (fun _ _ => 0) i 0 0 =
         true →
       splitMasks 3 3 [(fun _ x => decide (x ≤ 1) : Mask),
         (fun _ x => decide (1 ≤ x) : Mask)] ["a", "b"]
         (fun _ x => if x = 1 then 1 else 0) 2 (fun _ _ => 0) j 0 0 =
         true → i = j) :=
  manualSplit_partitions_land 3 3
    [(fun _ x => decide (x ≤ 1) : Mask), (fun _ x => decide (1 ≤ x) : Mask)]
    ["a", "b"] mfalse (fun _ x => if x = 1 then 1 else 0) 2 (fun _ _ => 0)
    rfl (by decide) (by decide) 0 (by decide) 0 (by decide)

/-- C6 (amended): when the per-map land masks have no overlapping pixel,
or the user signals skip, `_manual_split` exports each map's land mask
unchanged — that is, the map's ContentMask placed on the canvas and then
dilated twice with the 5x5 elliptical kernel (the `land_masks` value),
not the raw ContentMask itself. -/
theorem manualSplitMasks_skip (canvasH canvasW : Nat)
    (maps : List (Img × Nat × Nat)) (names : List String) (skip : Bool)
    (L : Nat → Nat → Nat) (nCC : Nat) (dist : Nat → Nat → ℚ)
    (hcond : ((!((pixList canvasH canvasW).any fun p =>
      (accLand (landMasks canvasH canvasW maps)).2 p.1 p.2)) || skip) =
      true) :
    manualSplitMasks canvasH canvasW maps names skip L nCC dist =
      landMasks canvasH canvasW maps := by
  unfold manualSplitMasks
  rw [if_pos hcond]

/-- Witness for `manualSplitMasks_skip`: a single 1x1 bright map placed at
(2,2) on a 5x5 canvas, with the user skipping. -/
theorem manualSplitMasks_skip_witness :
    manualSplitMasks 5 5 [(⟨1, 1, 3, fun _ _ _ => 200⟩, 2, 2)] ["m"] true
      (fun _ _ => 0) 1 (fun _ _ => 0) =
      landMasks 5 5 [(⟨1, 1, 3, fun _ _ _ => 200⟩, 2, 2)] :=
  manualSplitMasks_skip 5 5 [(⟨1, 1, 3, fun _ _ _ => 200⟩, 2, 2)] ["m"]
    true (fun _ _ => 0) 1 (fun _ _ => 0) (by decide)

/-- C6 (counterexample to the original claim): the exported skip-path
ownership mask is the dilated land mask, not the map's raw ContentMask —
the canvas pixel (2,3) is owned although the placed ContentMask is false
there. -/
theorem skipMask_ne_contentMask_cex :
    ((manualSplitMasks 5 5 [(⟨1, 1, 3, fun _ _ _ => 200⟩, 2, 2)] ["m"]
        true (fun _ _ => 0) 1 (fun _ _ => 0)).getD 0 mfalse) 2 3 = true ∧
    placedContentMask 5 5 ⟨1, 1, 3, fun _ _ _ => 200⟩ 2 2 2 3 = false := by
  constructor
  · decide
  · decide

/-! ## Layout assembly (`DistinMapPage._build_layout`) -/

/-- The growing position dictionary of `_build_layout`. -/
abbrev PosMap := String → Option (ℤ × ℤ)

/-- Processing of one popped node's edge list (lines 856-859): each
neighbour without a position gets the propagated position and is
enqueued. -/
def nbrStep (cxy : ℤ × ℤ) (acc : PosMap × List String)
    (e : String × ℤ × ℤ) : PosMap × List String :=
  if (acc.1 e.1).isSome then acc
  else
    (fun s => if s = e.1 then some (cxy.1 + e.2.1, cxy.2 + e.2.2)
      else acc.1 s,
     acc.2 ++ [e.1])

/-- The BFS while-loop of `_build_layout` (lines 852-859), with explicit
fuel.  Each name is enqueued at most once (a push always accompanies a
fresh position assignment), so `names.length` units of fuel make the model
agree with the unbounded loop of the code. -/
def bfsInner (edges : String → List (String × ℤ × ℤ)) :
    Nat → List String → PosMap → List String → PosMap × List String
  | 0, _, pos, comp => (pos, comp)
  | _ + 1, [], pos, comp => (pos, comp)
  | fuel + 1, cur :: rest, pos, comp =>
    let cxy := (pos cur).getD (0, 0)
    let r := (edges cur).foldl (nbrStep cxy) (pos, [])
    bfsInner edges fuel (rest ++ r.2) r.1 (comp ++ [cur])

/-- The component-discovery loop of `_build_layout` (lines 846-860):
every not-yet-placed name seeds one BFS, collecting one component. -/
def bfsAll (names : List String)
    (edges : String → List (String × ℤ × ℤ)) :
    PosMap × List (List String) :=
  names.foldl
    (fun (acc : PosMap × List (List String)) start =>
      if (acc.1 start).isSome then acc
      else
        let pos1 : PosMap := fun s =>
          if s = start then some (0, 0) else acc.1 s
        let r := bfsInner edges names.length [start] pos1 []
        (r.1, acc.2 ++ [r.2]))
    ((fun _ => none), [])

/-- One step of the normalization loop (lines 864-872): shift the
component so its minimum x is the cursor and its minimum y is zero, then
advance the cursor past the component's rightmost extent plus the fixed
20-pixel gap.  (A BFS component is never empty; the empty case is
unreachable.) -/
def normStep (widths : String → Nat) (acc : (String → ℤ × ℤ) × ℤ)
    (comp : List String) : (String → ℤ × ℤ) × ℤ :=
  match comp with
  | [] => acc
  | nm0 :: rest =>
    let minX := (nm0 :: rest).foldl (fun a nm => min a (acc.1 nm).1)
      (acc.1 nm0).1
    let minY := (nm0 :: rest).foldl (fun a nm => min a (acc.1 nm).2)
      (acc.1 nm0).2
    let pos2 : String → ℤ × ℤ := fun s =>
      if s ∈ nm0 :: rest then
        ((acc.1 s).1 - minX + acc.2, (acc.1 s).2 - minY)
      else acc.1 s
    let maxRight := (nm0 :: rest).foldl
      (fun a nm => max a ((acc.1 nm).1 - minX + acc.2 + (widths nm : ℤ)))
      0
    (pos2, maxRight + 20)

/-- The full normalization pass over the discovered components, starting
from cursor 0. -/
def normalizeComponents (widths : String → Nat)
    (comps : List (List String)) (pos0 : String → ℤ × ℤ) :
    (String → ℤ × ℤ) × ℤ :=
  comps.foldl (normStep widths) (pos0, 0)

/-- The components found by `_build_layout`. -/
def buildComponents (names : List String)
    (edges : String → List (String × ℤ × ℤ)) : List (List String) :=
  (bfsAll names edges).2

/-- `DistinMapPage._build_layout` (lines 813-880): BFS placement followed
by per-component normalization. -/
def buildLayout (names : List String)
    (edges : String → List (String × ℤ × ℤ)) (widths : String → Nat) :
    String → ℤ × ℤ :=
  (normalizeComponents widths (bfsAll names edges).2
    (fun s => ((bfsAll names edges).1 s).getD (0, 0))).1

/-- The running cursor of the normalization before component `k` is
placed. -/
def layoutCursor (names : List String)
    (edges : String → List (String × ℤ × ℤ)) (widths : String → Nat)
    (k : Nat) : ℤ :=
  (((bfsAll names edges).2.take k).foldl (normStep widths)
    ((fun s => ((bfsAll names edges).1 s).getD (0, 0)), 0)).2

theorem foldl_min_le_init (l : List ℤ) (a : ℤ) : l.foldl min a ≤ a := by
  induction l generalizing a with
  | nil => exact le_refl a
  | cons c t ih =>
    rw [List.foldl_cons]
    exact le_trans (ih (min a c)) (min_le_left a c)

theorem foldl_min_le_mem (l : List ℤ) (a b : ℤ) (hb : b ∈ l) :
    l.foldl min a ≤ b := by
  induction l generalizing a with
  | nil => cases hb
  | cons c t ih =>
    rw [List.foldl_cons]
    rcases List.mem_cons.mp hb with rfl | hbt
    · exact le_trans (foldl_min_le_init t (min a b)) (min_le_right a b)
    · exact ih (min a c) hbt

theorem foldl_min_attained (l : List ℤ) (a : ℤ) :
    l.foldl min a = a ∨ l.foldl min a ∈ l := by
  induction l generalizing a with
  | nil => exact Or.inl rfl
  | cons c t ih =>
    rw [List.foldl_cons]
    rcases ih (min a c) with h | h
    · rcases min_choice a c with hmin | hmin
      · exact Or.inl (h.trans hmin)
      · exact Or.inr (by rw [h, hmin]; exact List.mem_cons_self c t)
    · exact Or.inr (List.mem_cons_of_mem c h)

theorem le_foldl_max_init (l : List ℤ) (a : ℤ) : a ≤ l.foldl max a := by
  induction l generalizing a with
  | nil => exact le_refl a
  | cons c t ih =>
    rw [List.foldl_cons]
    exact le_trans (le_max_left a c) (ih (max a c))

theorem le_foldl_max_mem (l : List ℤ) (a b : ℤ) (hb : b ∈ l) :
    b ≤ l.foldl max a := by
  induction l generalizing a with
  | nil => cases hb
  | cons c t ih =>
    rw [List.foldl_cons]
    rcases List.mem_cons.mp hb with rfl | hbt
    · exact le_trans (le_max_right a b) (le_foldl_max_init t (max a b))
    · exact ih (max a c) hbt

theorem normStep_spec (widths : String → Nat) (acc : (String → ℤ × ℤ) × ℤ)
    (nm0 : String) (rest : List String) :
    ∃ minX minY : ℤ,
      (∀ nm ∈ nm0 :: rest, minX ≤ (acc.1 nm).1 ∧ minY ≤ (acc.1 nm).2) ∧
      (∃ nm ∈ nm0 :: rest, (acc.1 nm).1 = minX) ∧
      (∃ nm ∈ nm0 :: rest, (acc.1 nm).2 = minY) ∧
      (∀ nm ∈ nm0 :: rest, (normStep widths acc (nm0 :: rest)).1 nm =
        ((acc.1 nm).1 - minX + acc.2, (acc.1 nm).2 - minY)) ∧
      (∀ s, s ∉ nm0 :: rest →
        (normStep widths acc (nm0 :: rest)).1 s = acc.1 s) ∧
      (∀ nm ∈ nm0 :: rest,
        (acc.1 nm).1 - minX + acc.2 + (widths nm : ℤ) + 20 ≤
          (normStep widths acc (nm0 :: rest)).2) ∧
      acc.2 + 20 ≤ (normStep widths acc (nm0 :: rest)).2 := by
  have hmap1 : ∀ (f : String → ℤ) (i : ℤ),
      (nm0 :: rest).foldl (fun a nm => min a (f nm)) i =
        ((nm0 :: rest).map f).foldl min i := fun f i =>
    (List.foldl_map f min (nm0 :: rest) i).symm
  have hmap2 : ∀ (f : String → ℤ) (i : ℤ),
      (nm0 :: rest).foldl (fun a nm => max a (f nm)) i =
        ((nm0 :: rest).map f).foldl max i := fun f i =>
    (List.foldl_map f max (nm0 :: rest) i).symm
  set mX := (nm0 :: rest).foldl (fun a nm => min a (acc.1 nm).1)
    (acc.1 nm0).1 with hmX
  set mY := (nm0 :: rest).foldl (fun a nm => min a (acc.1 nm).2)
    (acc.1 nm0).2 with hmY
  have hlow : ∀ nm ∈ nm0 :: rest, mX ≤ (acc.1 nm).1 ∧ mY ≤ (acc.1 nm).2 := by
    intro nm hnm
    constructor
    · rw [hmX, hmap1]
      exact foldl_min_le_mem _ _ _ (List.mem_map_of_mem _ hnm)
    · rw [hmY, hmap1]
      exact foldl_min_le_mem _ _ _ (List.mem_map_of_mem _ hnm)
  have hattX : ∃ nm ∈ nm0 :: rest, (acc.1 nm).1 = mX := by
    rw [hmX, hmap1]
    rcases foldl_min_attained ((nm0 :: rest).map fun nm => (acc.1 nm).1)
        (acc.1 nm0).1 with h | h
    · exact ⟨nm0, List.mem_cons_self nm0 rest, h.symm⟩
    · obtain ⟨nm, hnm, hval⟩ := List.mem_map.mp h
      exact ⟨nm, hnm, hval⟩
  have hattY : ∃ nm ∈ nm0 :: rest, (acc.1 nm).2 = mY := by
    rw [hmY, hmap1]
    rcases foldl_min_attained ((nm0 :: rest).map fun nm => (acc.1 nm).2)
        (acc.1 nm0).2 with h | h
    · exact ⟨nm0, List.mem_cons_self nm0 rest, h.symm⟩
    · obtain ⟨nm, hnm, hval⟩ := List.mem_map.mp h
      exact ⟨nm, hnm, hval⟩
  have hin : ∀ nm ∈ nm0 :: rest, (normStep widths acc (nm0 :: rest)).1 nm =
      ((acc.1 nm).1 - mX + acc.2, (acc.1 nm).2 - mY) := by
    intro nm hnm
    show (if nm ∈ nm0 :: rest then _ else _) = _
    rw [if_pos hnm]
  have hout : ∀ s, s ∉ nm0 :: rest →
      (normStep widths acc (nm0 :: rest)).1 s = acc.1 s := by
    intro s hs
    show (if s ∈ nm0 :: rest then _ else _) = _
    rw [if_neg hs]
  have hmax : ∀ nm ∈ nm0 :: rest,
      (acc.1 nm).1 - mX + acc.2 + (widths nm : ℤ) + 20 ≤
        (normStep widths acc (nm0 :: rest)).2 := by
    intro nm hnm
    show _ ≤ (nm0 :: rest).foldl
      (fun a nm => max a ((acc.1 nm).1 - mX + acc.2 + (widths nm : ℤ))) 0 + 20
    rw [hmap2]
    have := le_foldl_max_mem
      ((nm0 :: rest).map fun nm =>
        (acc.1 nm).1 - mX + acc.2 + (widths nm : ℤ)) 0 _
      (List.mem_map_of_mem _ hnm)
    omega
  have hgrow : acc.2 + 20 ≤ (normStep widths acc (nm0 :: rest)).2 := by
    obtain ⟨nm, hnm, hval⟩ := hattX
    have h1 := hmax nm hnm
    have h2 : (0 : ℤ) ≤ (widths nm : ℤ) := Int.natCast_nonneg _
    omega
  exact ⟨mX, mY, hlow, hattX, hattY, hin, hout, hmax, hgrow⟩

theorem normFold_untouched (widths : String → Nat)
    (comps : List (List String)) (acc : (String → ℤ × ℤ) × ℤ) (nm : String)
    (h : ∀ comp ∈ comps, nm ∉ comp) :
    (comps.foldl (normStep widths) acc).1 nm = acc.1 nm := by
  induction comps generalizing acc with
  | nil => rfl
  | cons c t ih =>
    rw [List.foldl_cons,
      ih (normStep widths acc c) (fun comp hc => h comp (List.mem_cons_of_mem c hc))]
    cases c with
    | nil => rfl
    | cons nm0 rest =>
      obtain ⟨mX, mY, -, -, -, -, hout, -, -⟩ := normStep_spec widths acc nm0 rest
      exact hout nm (h _ (List.mem_cons_self _ t))

theorem normFold_cursor_mono (widths : String → Nat)
    (comps : List (List String)) (acc : (String → ℤ × ℤ) × ℤ) :
    acc.2 ≤ (comps.foldl (normStep widths) acc).2 := by
  induction comps generalizing acc with
  | nil => exact le_refl _
  | cons c t ih =>
    rw [List.foldl_cons]
    refine le_trans ?_ (ih (normStep widths acc c))
    cases c with
    | nil => exact le_refl _
    | cons nm0 rest =>
      obtain ⟨mX, mY, -, -, -, -, -, -, hgrow⟩ := normStep_spec widths acc nm0 rest
      omega

theorem normFold_spec (widths : String → Nat) (comps : List (List String))
    (acc : (String → ℤ × ℤ) × ℤ)
    (hne : ∀ comp ∈ comps, comp ≠ [])
    (hdisj : comps.Pairwise List.Disjoint) :
    ∀ k, (hk : k < comps.length) →
      (∀ nm ∈ comps[k],
        0 ≤ ((comps.foldl (normStep widths) acc).1 nm).2 ∧
        ((comps.take k).foldl (normStep widths) acc).2 ≤
          ((comps.foldl (normStep widths) acc).1 nm).1 ∧
        ((comps.foldl (normStep widths) acc).1 nm).1 + (widths nm : ℤ) + 20 ≤
          ((comps.take (k + 1)).foldl (normStep widths) acc).2) ∧
      (∃ nm ∈ comps[k],
        ((comps.foldl (normStep widths) acc).1 nm).2 = 0) ∧
      (∃ nm ∈ comps[k],
        ((comps.foldl (normStep widths) acc).1 nm).1 =
          ((comps.take k).foldl (normStep widths) acc).2) := by
  intro k hk
  have htake : comps.take (k + 1) = comps.take k ++ [comps[k]] := by
    rw [List.take_succ, List.getElem?_eq_getElem hk]
    rfl
  have hA1 : (comps.take (k + 1)).foldl (normStep widths) acc =
      normStep widths ((comps.take k).foldl (normStep widths) acc)
        comps[k] := by
    rw [htake, List.foldl_append]
    rfl
  have hsplit : comps = comps.take (k + 1) ++ comps.drop (k + 1) :=
    (List.take_append_drop _ _).symm
  have hres : comps.foldl (normStep widths) acc =
      (comps.drop (k + 1)).foldl (normStep widths)
        (normStep widths ((comps.take k).foldl (normStep widths) acc)
          comps[k]) := by
    conv_lhs => rw [hsplit]
    rw [List.foldl_append, hA1]
  obtain ⟨nm0, rest, hcomp⟩ :=
    List.exists_cons_of_ne_nil (hne comps[k] (List.getElem_mem hk))
  have hnotin : ∀ nm ∈ comps[k], ∀ comp ∈ comps.drop (k + 1), nm ∉ comp := by
    intro nm hnm comp hcompmem
    obtain ⟨j, hj, hjeq⟩ := List.mem_iff_getElem.mp hcompmem
    rw [List.getElem_drop] at hjeq
    have hdisjkl := List.pairwise_iff_getElem.mp hdisj k (k + 1 + j) hk
      (by have := hj; simp only [List.length_drop] at this; omega)
      (by omega)
    rw [hjeq] at hdisjkl
    exact fun hmem => hdisjkl hnm hmem
  have hpos : ∀ nm ∈ comps[k],
      (comps.foldl (normStep widths) acc).1 nm =
        (normStep widths ((comps.take k).foldl (normStep widths) acc)
          comps[k]).1 nm := by
    intro nm hnm
    rw [hres]
    exact normFold_untouched widths (comps.drop (k + 1)) _ nm
      (hnotin nm hnm)
  set A := (comps.take k).foldl (normStep widths) acc with hA
  rw [hcomp] at hpos hA1 ⊢
  obtain ⟨mX, mY, hlow, hattX, hattY, hin, -, hmax, -⟩ :=
    normStep_spec widths A nm0 rest
  refine ⟨?_, ?_, ?_⟩
  · intro nm hnm
    rw [hpos nm hnm, hin nm hnm]
    refine ⟨?_, ?_, ?_⟩
    · have := (hlow nm hnm).2
      simp only
      omega
    · have := (hlow nm hnm).1
      simp only
      omega
    · rw [hA1]
      have := hmax nm hnm
      simp only
      omega
  · obtain ⟨nm, hnm, hval⟩ := hattY
    refine ⟨nm, hnm, ?_⟩
    rw [hpos nm hnm, hin nm hnm]
    simp only
    omega
  · obtain ⟨nm, hnm, hval⟩ := hattX
    refine ⟨nm, hnm, ?_⟩
    rw [hpos nm hnm, hin nm hnm]
    simp only
    omega

theorem normFold_separated (widths : String → Nat)
    (comps : List (List String)) (acc : (String → ℤ × ℤ) × ℤ)
    (hne : ∀ comp ∈ comps, comp ≠ [])
    (hdisj : comps.Pairwise List.Disjoint) :
    ∀ k l, (hk : k < comps.length) → (hl : l < comps.length) → k < l →
      ∀ nm ∈ comps[k], ∀ nm' ∈ comps[l],
        ((comps.foldl (normStep widths) acc).1 nm).1 + (widths nm : ℤ) + 20 ≤
          ((comps.foldl (normStep widths) acc).1 nm').1 := by
  intro k l hk hl hkl nm hnm nm' hnm'
  have h1 := ((normFold_spec widths comps acc hne hdisj k hk).1 nm hnm).2.2
  have h2 := ((normFold_spec widths comps acc hne hdisj l hl).1 nm' hnm').2.1
  have hmono : ((comps.take (k + 1)).foldl (normStep widths) acc).2 ≤
      ((comps.take l).foldl (normStep widths) acc).2 := by
    have hdecomp : comps.take l =
        comps.take (k + 1) ++ (comps.drop (k + 1)).take (l - (k + 1)) := by
      have hle : l = (k + 1) + (l - (k + 1)) := by omega
      conv_lhs => rw [hle]
      exact List.take_add comps (k + 1) (l - (k + 1))
    rw [hdecomp, List.foldl_append]
    exact normFold_cursor_mono widths _ _
  omega

theorem nbrStep_inv (cxy : ℤ × ℤ) (pos : PosMap)
    (acc : PosMap × List String) (e : String × ℤ × ℤ)
    (h1 : ∀ s, (pos s).isSome = true → (acc.1 s).isSome = true)
    (h2 : ∀ x ∈ acc.2, (pos x).isSome = false ∧ (acc.1 x).isSome = true)
    (h3 : acc.2.Nodup) :
    (∀ s, (pos s).isSome = true →
      ((nbrStep cxy acc e).1 s).isSome = true) ∧
    (∀ x ∈ (nbrStep cxy acc e).2,
      (pos x).isSome = false ∧ ((nbrStep cxy acc e).1 x).isSome = true) ∧
    (nbrStep cxy acc e).2.Nodup := by
  unfold nbrStep
  split
  · exact ⟨h1, h2, h3⟩
  · rename_i hnone
    refine ⟨?_, ?_, ?_⟩
    · intro s hs
      show (if s = e.1 then some _ else acc.1 s).isSome = true
      by_cases he : s = e.1
      · rw [if_pos he]; rfl
      · rw [if_neg he]; exact h1 s hs
    · intro x hx
      rcases List.mem_append.mp hx with hxa | hxe
      · refine ⟨(h2 x hxa).1, ?_⟩
        show (if x = e.1 then some _ else acc.1 x).isSome = true
        by_cases he : x = e.1
        · rw [if_pos he]; rfl
        · rw [if_neg he]; exact (h2 x hxa).2
      · have hx1 : x = e.1 := by simpa using hxe
        subst hx1
        refine ⟨?_, ?_⟩
        · cases hp : (pos e.1).isSome with
          | false => rfl
          | true => exact absurd (h1 e.1 hp) hnone
        · show (if e.1 = e.1 then some _ else acc.1 e.1).isSome = true
          rw [if_pos rfl]; rfl
    · refine List.Nodup.append h3 (List.nodup_singleton _) ?_
      intro x hxa hxe
      have hsome := (h2 x hxa).2
      have hx1 : x = e.1 := by simpa using hxe
      rw [hx1] at hsome
      exact hnone hsome

theorem nbrFold_spec (cxy : ℤ × ℤ) (l : List (String × ℤ × ℤ))
    (pos : PosMap) :
    (∀ s, (pos s).isSome = true →
      ((l.foldl (nbrStep cxy) (pos, [])).1 s).isSome = true) ∧
    (∀ x ∈ (l.foldl (nbrStep cxy) (pos, [])).2,
      (pos x).isSome = false ∧
        ((l.foldl (nbrStep cxy) (pos, [])).1 x).isSome = true) ∧
    (l.foldl (nbrStep cxy) (pos, [])).2.Nodup := by
  suffices H : ∀ acc : PosMap × List String,
      (∀ s, (pos s).isSome = true → (acc.1 s).isSome = true) →
      (∀ x ∈ acc.2, (pos x).isSome = false ∧ (acc.1 x).isSome = true) →
      acc.2.Nodup →
      ((∀ s, (pos s).isSome = true →
        ((l.foldl (nbrStep cxy) acc).1 s).isSome = true) ∧
       (∀ x ∈ (l.foldl (nbrStep cxy) acc).2,
        (pos x).isSome = false ∧
          ((l.foldl (nbrStep cxy) acc).1 x).isSome = true) ∧
       (l.foldl (nbrStep cxy) acc).2.Nodup) by
    exact H (pos, []) (fun s h => h) (by simp) List.nodup_nil
  induction l with
  | nil => intro acc h1 h2 h3; exact ⟨h1, h2, h3⟩
  | cons e t ih =>
    intro acc h1 h2 h3
    rw [List.foldl_cons]
    obtain ⟨g1, g2, g3⟩ := nbrStep_inv cxy pos acc e h1 h2 h3
    exact ih (nbrStep cxy acc e) g1 g2 g3

theorem bfsInner_spec (edges : String → List (String × ℤ × ℤ)) :
    ∀ (fuel : Nat) (queue : List String) (pos : PosMap) (comp : List String),
    (∀ s ∈ queue, (pos s).isSome = true) →
    (∀ s ∈ comp, (pos s).isSome = true) →
    (comp ++ queue).Nodup →
    ((∃ ext, (bfsInner edges fuel queue pos comp).2 = comp ++ ext) ∧
     (bfsInner edges fuel queue pos comp).2.Nodup ∧
     (∀ s ∈ (bfsInner edges fuel queue pos comp).2,
       ((bfsInner edges fuel queue pos comp).1 s).isSome = true) ∧
     (∀ s, (pos s).isSome = true →
       ((bfsInner edges fuel queue pos comp).1 s).isSome = true) ∧
     (∀ s, (pos s).isSome = true → s ∉ comp → s ∉ queue →
       s ∉ (bfsInner edges fuel queue pos comp).2) ∧
     (1 ≤ fuel → queue ≠ [] →
       (bfsInner edges fuel queue pos comp).2 ≠ [])) := by
  intro fuel
  induction fuel with
  | zero =>
    intro queue pos comp hq hc hnd
    exact ⟨⟨[], (List.append_nil comp).symm⟩, hnd.of_append_left, hc,
      fun s h => h, fun s h hcomp hqueue => hcomp, fun h => absurd h (by omega)⟩
  | succ f ih =>
    intro queue pos comp hq hc hnd
    cases queue with
    | nil =>
      exact ⟨⟨[], (List.append_nil comp).symm⟩,
        (by simpa using hnd : comp.Nodup), hc, fun s h => h,
        fun s h hcomp hqueue => hcomp, fun h1 h2 => absurd rfl h2⟩
    | cons cur rest =>
      have hstep : bfsInner edges (f + 1) (cur :: rest) pos comp =
          bfsInner edges f
            (rest ++ ((edges cur).foldl
              (nbrStep ((pos cur).getD (0, 0))) (pos, [])).2)
            ((edges cur).foldl (nbrStep ((pos cur).getD (0, 0))) (pos, [])).1
            (comp ++ [cur]) := rfl
      obtain ⟨hmono, hnew, hnewnd⟩ :=
        nbrFold_spec ((pos cur).getD (0, 0)) (edges cur) pos
      set r := (edges cur).foldl (nbrStep ((pos cur).getD (0, 0))) (pos, [])
        with hr
      have hcurpos : (pos cur).isSome = true :=
        hq cur (List.mem_cons_self cur rest)
      have hq' : ∀ s ∈ rest ++ r.2, (r.1 s).isSome = true := by
        intro s hs
        rcases List.mem_append.mp hs with h | h
        · exact hmono s (hq s (List.mem_cons_of_mem cur h))
        · exact (hnew s h).2
      have hc' : ∀ s ∈ comp ++ [cur], (r.1 s).isSome = true := by
        intro s hs
        rcases List.mem_append.mp hs with h | h
        · exact hmono s (hc s h)
        · have : s = cur := by simpa using h
          subst this
          exact hmono s hcurpos
      have hnd' : ((comp ++ [cur]) ++ (rest ++ r.2)).Nodup := by
        have hshape : (comp ++ [cur]) ++ rest = comp ++ cur :: rest := by
          simp
        have hbase : ((comp ++ [cur]) ++ rest).Nodup := by
          rw [hshape]; exact hnd
        rw [List.append_assoc, ← List.append_assoc comp,
          ← List.append_assoc, ]
        refine List.Nodup.append hbase hnewnd ?_
        intro a ha har
        have hfresh := (hnew a har).1
        rw [hshape] at ha
        rcases List.mem_append.mp ha with h | h
        · rw [hc a h] at hfresh; cases hfresh
        · rw [hq a h] at hfresh; cases hfresh
      obtain ⟨⟨ext, hext⟩, g2, g3, g4, g5, -⟩ :=
        ih (rest ++ r.2) r.1 (comp ++ [cur]) hq' hc' hnd'
      rw [hstep]
      refine ⟨⟨cur :: ext, by rw [hext]; simp⟩, g2, g3,
        fun s h => g4 s (hmono s h), ?_, ?_⟩
      · intro s hpos2 hcomp hqueue
        have hscur : s ≠ cur := by
          intro he
          exact hqueue (he ▸ List.mem_cons_self cur rest)
        have h1 : s ∉ comp ++ [cur] := by
          intro hmem
          rcases List.mem_append.mp hmem with h | h
          · exact hcomp h
          · exact hscur (by simpa using h)
        have h2 : s ∉ rest ++ r.2 := by
          intro hmem
          rcases List.mem_append.mp hmem with h | h
          · exact hqueue (List.mem_cons_of_mem cur h)
          · rw [(hnew s h).1] at hpos2; cases hpos2
        exact g5 s (hmono s hpos2) h1 h2
      · intro h1 h2
        rw [hext]
        simp

theorem bfsAll_spec (names : List String)
    (edges : String → List (String × ℤ × ℤ)) :
    (∀ comp ∈ (bfsAll names edges).2, comp ≠ []) ∧
    (bfsAll names edges).2.Pairwise List.Disjoint ∧
    (∀ comp ∈ (bfsAll names edges).2, ∀ s ∈ comp,
      ((bfsAll names edges).1 s).isSome = true) := by
  unfold bfsAll
  apply foldl_preserve
    (fun acc : PosMap × List (List String) =>
      (∀ comp ∈ acc.2, comp ≠ []) ∧ acc.2.Pairwise List.Disjoint ∧
      (∀ comp ∈ acc.2, ∀ s ∈ comp, (acc.1 s).isSome = true))
  · exact ⟨by simp, by simp, by simp⟩
  · intro acc start hstart hP
    dsimp only
    split
    · exact hP
    · rename_i hunassigned
      set pos1 : PosMap := fun s =>
        if s = start then some (0, 0) else acc.1 s with hpos1
      have hmono1 : ∀ s, (acc.1 s).isSome = true →
          (pos1 s).isSome = true := by
        intro s hs
        rw [hpos1]
        by_cases he : s = start
        · simp [he]
        · simp [he, hs]
      have hstartpos : (pos1 start).isSome = true := by
        rw [hpos1]; simp
      obtain ⟨⟨ext, hext⟩, g2, g3, g4, g5, g6⟩ :=
        bfsInner_spec edges names.length [start] pos1 []
          (by intro s hs
              have : s = start := by simpa using hs
              subst this
              exact hstartpos)
          (by intro s hs; cases hs)
          (by simp)
      have hfuel : 1 ≤ names.length :=
        List.length_pos.mpr (List.ne_nil_of_mem hstart)
      have hnewne : (bfsInner edges names.length [start] pos1 []).2 ≠ [] :=
        g6 hfuel (by simp)
      refine ⟨?_, ?_, ?_⟩
      · intro comp hcomp
        rcases List.mem_append.mp hcomp with h | h
        · exact hP.1 comp h
        · have : comp = (bfsInner edges names.length [start] pos1 []).2 := by
            simpa using h
          rw [this]
          exact hnewne
      · rw [List.pairwise_append]
        refine ⟨hP.2.1, List.pairwise_singleton _ _, ?_⟩
        intro a ha b hb
        have hb2 : b = (bfsInner edges names.length [start] pos1 []).2 := by
          simpa using hb
        subst hb2
        intro s hsa hsb
        have hsome : (acc.1 s).isSome = true := hP.2.2 a ha s hsa
        have hne : s ∉ [start] := by
          intro hmem
          have : s = start := by simpa using hmem
          subst this
          exact hunassigned hsome
        exact g5 s (hmono1 s hsome) (by simp) hne hsb
      · intro comp hcomp s hs
        rcases List.mem_append.mp hcomp with h | h
        · exact g4 s (hmono1 s (hP.2.2 comp h s hs))
        · have : comp = (bfsInner edges names.length [start] pos1 []).2 := by
            simpa using h
          subst this
          exact g3 s hs

/-- C8: after the normalization in `_build_layout`, every connected
component has minimum y-position zero and minimum x-position equal to the
running cursor, each member's right edge plus the fixed 20-pixel gap stays
at or left of the next cursor, and for two distinct components every
member of the earlier one lies at least width + 20 pixels to the left of
every member of the later one, so component bounding boxes never
overlap. -/
theorem buildLayout_normalized (names : List String)
    (edges : String → List (String × ℤ × ℤ)) (widths : String → Nat) :
    ∀ k, (hk : k < (buildComponents names edges).length) →
      ((∀ nm ∈ (buildComponents names edges)[k],
          0 ≤ (buildLayout names edges widths nm).2 ∧
          layoutCursor names edges widths k ≤
            (buildLayout names edges widths nm).1 ∧
          (buildLayout names edges widths nm).1 + (widths nm : ℤ) + 20 ≤
            layoutCursor names edges widths (k + 1)) ∧
       (∃ nm ∈ (buildComponents names edges)[k],
          (buildLayout names edges widths nm).2 = 0) ∧
       (∃ nm ∈ (buildComponents names edges)[k],
          (buildLayout names edges widths nm).1 =
            layoutCursor names edges widths k)) ∧
      (∀ l, (hl : l < (buildComponents names edges).length) → k < l →
        ∀ nm ∈ (buildComponents names edges)[k],
        ∀ nm' ∈ (buildComponents names edges)[l],
          (buildLayout names edges widths nm).1 + (widths nm : ℤ) + 20 ≤
            (buildLayout names edges widths nm').1) := by
  intro k hk
  have hb := bfsAll_spec names edges
  constructor
  · exact normFold_spec widths (bfsAll names edges).2
      ((fun s => ((bfsAll names edges).1 s).getD (0, 0)), 0)
      hb.1 hb.2.1 k hk
  · intro l hl hkl nm hnm nm' hnm'
    exact normFold_separated widths (bfsAll names edges).2
      ((fun s => ((bfsAll names edges).1 s).getD (0, 0)), 0)
      hb.1 hb.2.1 k l hk hl hkl nm hnm nm' hnm'

/-- Witness for `buildLayout_normalized`: two disconnected maps "a" and
"b" of width 10; the first component contains a name at y = 0. -/
theorem buildLayout_normalized_witness :
    ∃ nm ∈ (buildComponents ["a", "b"] (fun _ => [])).get ⟨0, by decide⟩,
      (buildLayout ["a", "b"] (fun _ => []) (fun _ => 10) nm).2 = 0 :=
  ((buildLayout_normalized ["a", "b"] (fun _ => []) (fun _ => 10) 0
    (by decide)).1).2.1

end MaaEnd
